import Mathlib

/-!
# Verification of the node-cdb constant-database implementation

A shallow embedding, in Lean 4, of the core of the `node-cdb` repository:

* the little-endian 32-bit codec used by `writable-cdb.ts` / `readable-cdb.ts`
  (`Buffer.readUInt32LE` / `writeUInt32LE`),
* the DJB-style hash functions (`cdb-util.js` `cdbHash`, `cdb-util.ts`
  `originalHash` / `defaultHash`),
* the writer (`CDBWritable.put` / `close` and the helper
  `getBufferForHashtable` / `getBufferForHeader`),
* the reader (`CDBReadable.open` header parsing, the `get` probe loop
  `readSlot`/`checkHash`/`readKey`/`checkKey`, `getNext` and its bookmark
  closure),
* the generational block cache (`RawDataReaderCacheWrapper`).

Files are byte lists (`List Nat`, each element a byte value).  Keys and values
are modelled as byte lists; for the JavaScript strings actually passed to the
library this matches ASCII keys, where `charCodeAt`, the UTF-8 encoding used by
`Buffer.byteLength` / `record.write`, and `buffer.toString()` all agree
byte-for-byte.  The asynchronous callback chains of the source are sequential
state-passing functions here; the reader's probe loop takes an explicit fuel
argument because, on arbitrary files, the JavaScript loop need not terminate.
-/

set_option autoImplicit false
set_option maxRecDepth 1000000

namespace NodeCdb

/-! ## Binary codec: little-endian unsigned 32-bit integers -/
/-- Source `buffer.readUInt32LE(offset)`: assemble four bytes, least significant
first.  Out-of-range indices read as zero; every use in the proofs below is
in-range. -/
def readUInt32LE (buffer : List Nat) (offset : Nat) : Nat :=
  buffer.getD offset 0 + 256 * buffer.getD (offset + 1) 0 +
    65536 * buffer.getD (offset + 2) 0 + 16777216 * buffer.getD (offset + 3) 0

/-- The four bytes produced by `buffer.writeUInt32LE(value, ·)`, least
significant first. -/
def uInt32Bytes (value : Nat) : List Nat :=
  [value % 256, value / 256 % 256, value / 65536 % 256, value / 16777216 % 256]

/-- In-place write of `bytes` into `buffer` starting at `offset`
(the `Buffer` mutation pattern of `getBufferForHashtable`). -/
def writeBytesAt (buffer : List Nat) (offset : Nat) (bytes : List Nat) : List Nat :=
  buffer.take offset ++ bytes ++ buffer.drop (offset + bytes.length)

@[simp] theorem length_uInt32Bytes (v : Nat) : (uInt32Bytes v).length = 4 := rfl

/-! ### Segments of a file

`SegAt file pos seg` says the byte list `seg` occurs in `file` starting at
offset `pos`.  All layout reasoning below (header / data region / hashtable
region) is phrased through this predicate. -/
/-- Predicate: `seg` occupies offsets `[pos, pos + seg.length)` of `file`. -/
def SegAt (file : List Nat) (pos : Nat) (seg : List Nat) : Prop :=
  ∃ A B, file = A ++ seg ++ B ∧ A.length = pos

/-! ## Hash functions

`cdb-util.js` (used by `writable-cdb.ts` / `readable-cdb.ts`):

    hash = ((((hash << 5) >>> 0) + hash) ^ key.charCodeAt(i)) >>> 0

`cdb-util.ts` `originalHash` is the same recurrence over the bytes of a
`Buffer`.  In JavaScript, `(h << 5) >>> 0` is `(h * 32) mod 2^32`; the `^`
converts both operands to 32-bit integers first, so one step is
`((h * 32 mod 2^32) + h mod 2^32) xor (b mod 2^32)`, re-read as unsigned. -/
/-- One step of the source hash recurrence, with JavaScript's 32-bit
wrap-arounds made explicit. -/
def originalHashStep (hash b : Nat) : Nat :=
  ((hash * 32 % 4294967296 + hash) % 4294967296) ^^^ (b % 4294967296)

/-- Source `originalHash` of `cdb-util.ts`: DJB-style fold over the key bytes. -/
def originalHash (key : List Nat) : Nat :=
  key.foldl originalHashStep 5381

/-- Source `cdbHash` of `cdb-util.js`: the same recurrence over `charCodeAt` values,
which coincide with the bytes for the byte-list key model. -/
def cdbHash (key : List Nat) : Nat :=
  key.foldl originalHashStep 5381

/-- Source `defaultHash` of `cdb-util.ts`: the 32-bit result plus the first four
bytes of the zero-padded-if-short key, as a little-endian word, shifted into
bits 32..63. -/
def defaultHash (key : List Nat) : Nat :=
  let paddedKey := if key.length < 4 then key ++ List.replicate (4 - key.length) 0 else key
  originalHash key + readUInt32LE paddedKey 0 * 4294967296

/-- The hash recurrence exactly as the specification words it: accumulator
5381, then `acc = ((acc * 33) mod 2^32) XOR byte` per input byte. -/
def specDJBHash (key : List Nat) : Nat :=
  key.foldl (fun acc b => acc * 33 % 4294967296 ^^^ b) 5381

/-! ## Writer (`writable-cdb.ts`)

`CDBWritable` keeps the tracked `filePosition`, the 256 in-memory per-bucket
entry lists (`hashtables`), and — standing in for the bytes pushed into the
record `WriteStream` — the data region contents (`records`).  `HEADER_SIZE`
is 2048 and `TABLE_SIZE` is 256 (32-bit profile: 256 × 8-byte header
entries). -/
/-- The source's `interface Hashtable { hash; position }`: one in-memory
bucket entry. -/
structure Hashtable where
  hash : Nat
  position : Nat
deriving DecidableEq, Repr

/-- The source's `interface WriteHeader { position; slots }`. -/
structure WriteHeader where
  position : Nat
  slots : Nat
deriving DecidableEq, Repr

/-- The record buffer built by `put`: `writeUInt32LE(keyLength, 0)`,
`writeUInt32LE(dataLength, 4)`, `write(key, 8)`, `write(data, 8 + keyLength)`. -/
def recordBytes (key data : List Nat) : List Nat :=
  uInt32Bytes key.length ++ uInt32Bytes data.length ++ key ++ data

@[simp] theorem length_recordBytes (key data : List Nat) :
    (recordBytes key data).length = 8 + key.length + data.length := by
  simp [recordBytes]; omega

structure CDBWritable where
  filePosition : Nat
  hashtables : List (List Hashtable)
  records : List Nat
deriving DecidableEq, Repr

/-- The writer state right after a successful `open()`: `filePosition` is
`HEADER_SIZE`, all 256 bucket lists are empty (the source leaves them
`undefined` and lazily initialises to `[]`), no record bytes yet. -/
def CDBWritable.openWriter : CDBWritable :=
  ⟨2048, List.replicate 256 [], []⟩

/-- Source `CDBWritable.put(key, data)`: append the record buffer to the record
stream, push `{hash, position: filePosition}` onto bucket `hash & 255`, and
advance `filePosition` by the record length.  Note that nothing here consults
any error state: these effects are unconditional in the source. -/
def CDBWritable.put (self : CDBWritable) (key data : List Nat) : CDBWritable :=
  let hash := cdbHash key
  let hashtableIndex := hash % 256
  { filePosition := self.filePosition + (8 + key.length + data.length)
    hashtables := self.hashtables.set hashtableIndex
      (self.hashtables.getD hashtableIndex [] ++ [⟨hash, self.filePosition⟩])
    records := self.records ++ recordBytes key data }

/-- A sequence of `put` calls. -/
def putList (self : CDBWritable) (pairs : List (List Nat × List Nat)) : CDBWritable :=
  pairs.foldl (fun w p => w.put p.1 p.2) self

/-! ### `getBufferForHashtable`, byte-level

The while loop `while (buffer.readUInt32LE(bufferPosition) !== 0)` reads the
**hash** field of the slot (`bufferPosition = slot * 8`), so the occupancy
test of the source is "hash field ≠ 0".  The loop scans
`slot, (slot+1) % slotCount, …` and, provided a free-looking slot exists,
stops at the first one; `findFreeSlot` expresses exactly that first index (if
no slot looks free the JavaScript loop would never terminate — the fallback
value is never reached in any use below, since at most `n` of the `2n` slots
are ever written). -/
def findFreeSlot (buffer : List Nat) (slotCount start : Nat) : Nat :=
  match (List.range slotCount).find?
      (fun k => readUInt32LE buffer ((start + k) % slotCount * 8) == 0) with
  | some k => (start + k) % slotCount
  | none => start % slotCount

/-- One iteration of the `for` loop of `getBufferForHashtable`: probe from the
home slot `(hash >>> 8) % slotCount` and write the 8 slot bytes
(`writeUInt32LE(hash, bufferPosition)`, `writeUInt32LE(position,
bufferPosition + 4)`). -/
def insertHashtableEntry (buffer : List Nat) (slotCount : Nat) (entry : Hashtable) :
    List Nat :=
  let slot := findFreeSlot buffer slotCount (entry.hash / 256 % slotCount)
  writeBytesAt buffer (slot * 8) (uInt32Bytes entry.hash ++ uInt32Bytes entry.position)

/-- Source `getBufferForHashtable`: a zeroed buffer of `2n` 8-byte slots, filled by
probing each entry in input order. -/
def getBufferForHashtable (hashtable : List Hashtable) : List Nat :=
  let slotCount := hashtable.length * 2
  hashtable.foldl (fun buffer e => insertHashtableEntry buffer slotCount e)
    (List.replicate (slotCount * 8) 0)

/-! ### The slot-level view of the hashtable builder

The same algorithm over an array of `(hash, position)` pairs instead of raw
bytes; `getBufferForHashtable_eq_serializeSlots` below proves the byte-level
builder is its serialization.  Empty slots are `(0, 0)`; the occupancy test is
on the hash component, matching the byte read at `slot * 8`. -/
def serializeSlots (slots : List (Nat × Nat)) : List Nat :=
  slots.flatMap (fun s => uInt32Bytes s.1 ++ uInt32Bytes s.2)

def findFreeSlotIdx (slots : List (Nat × Nat)) (slotCount start : Nat) : Nat :=
  match (List.range slotCount).find?
      (fun k => (slots.getD ((start + k) % slotCount) (0, 0)).1 == 0) with
  | some k => (start + k) % slotCount
  | none => start % slotCount

def insertSlot (slots : List (Nat × Nat)) (slotCount : Nat) (entry : Hashtable) :
    List (Nat × Nat) :=
  let slot := findFreeSlotIdx slots slotCount (entry.hash / 256 % slotCount)
  slots.set slot (entry.hash, entry.position)

def buildSlots (hashtable : List Hashtable) : List (Nat × Nat) :=
  let slotCount := hashtable.length * 2
  hashtable.foldl (fun slots e => insertSlot slots slotCount e)
    (List.replicate slotCount (0, 0))

/-! ### `close()` -/
/-- Source `getBufferForHeader`: 256 `(position, slotCount)` pairs, 8 bytes each,
little-endian, at file offset 0. -/
def getBufferForHeader (headerTable : List WriteHeader) : List Nat :=
  headerTable.flatMap (fun e => uInt32Bytes e.position ++ uInt32Bytes e.slots)

/-- The `for (i = 0; i < length; i++)` loop of `writeHashtables`, rendered
recursively: thread the tracked file position through the buckets, emitting
each bucket's serialized slot table and its header entry
`{position: filePosition, slots: 2n}`. -/
def closeBuckets : Nat → List (List Hashtable) → List WriteHeader × List Nat
  | _, [] => ([], [])
  | filePosition, hashtable :: rest =>
    let buffer := getBufferForHashtable hashtable
    let (header, tableBytes) := closeBuckets (filePosition + buffer.length) rest
    (⟨filePosition, hashtable.length * 2⟩ :: header, buffer ++ tableBytes)

/-- The outcome of a successful `close()`: the header entries and the final
file contents `[header][data region][hashtable region]` (the header bytes are
written last, at offset 0, via `writeFile` with flag `r+`). -/
structure ClosedCDB where
  header : List WriteHeader
  file : List Nat
deriving DecidableEq, Repr

def CDBWritable.close (self : CDBWritable) : ClosedCDB :=
  let r := closeBuckets self.filePosition self.hashtables
  ⟨r.1, getBufferForHeader r.1 ++ self.records ++ r.2⟩

/-! ## Reader (`readable-cdb.ts`)

`get`'s callback chain `readSlot → checkHash → readKey → checkKey →
returnData` is one loop iteration; `getLoop` runs it with explicit fuel (the
JavaScript loop can diverge on adversarial files, see claim C6).  Every call
of the underlying `read` is counted in `reads`.  The `bookmark` closure of
`returnData` captures the local variables `hash`, `key`, `position`,
`slotCount` and the *mutable* `slot`; `Bookmark` is that captured state.
`getNext` keeps mutating the same captured `slot`, which is why it is updated
on every outcome of a resumed probe. -/
/-- The source's `interface ReadHeader { position; slotCount }`. -/
structure ReadHeader where
  position : Nat
  slotCount : Nat
deriving DecidableEq, Repr

/-- The state captured by the `bookmark` closure installed by `returnData`. -/
structure Bookmark where
  hash : Nat
  key : List Nat
  position : Nat
  slotCount : Nat
  slot : Nat
deriving DecidableEq, Repr

structure CDBReadable where
  header : List ReadHeader
  bookmark : Option Bookmark
deriving DecidableEq, Repr

/-- Source `open()`: read the 2048-byte header and decode 256 little-endian
`(position, slotCount)` pairs; no bookmark is set. -/
def CDBReadable.openReader (file : List Nat) : CDBReadable :=
  ⟨(List.range 256).map (fun i => ⟨readUInt32LE file (8 * i), readUInt32LE file (8 * i + 4)⟩),
    none⟩

/-- How a `get`/`getNext` invocation ends, as seen by its callback.
`notCalled` records that the callback was never invoked at all (the
`getNext`-without-bookmark path); `fuelOut` is the modelling artifact for a
probe loop that has not terminated within the given fuel. -/
inductive CallOutcome where
  | notCalled
  | fuelOut
  | found (data : List Nat)
  | notFound
deriving DecidableEq, Repr

/-- Result of one probe loop: outcome, the final value of the mutated `slot`
variable, and how many `read` calls were issued. -/
structure ProbeResult where
  out : CallOutcome
  slotFinal : Nat
  reads : Nat
deriving DecidableEq, Repr

/-- The probe loop of `get`.  One iteration:

* `readSlot`: read 8 bytes at `position + (slot % slotCount) * 8`;
* `checkHash`: on `recordHash == hash` read the record header at
  `recordPosition`; on `recordHash === 0` report not-found; else advance;
* `readKey`: on stored/query key-length mismatch advance (cheap rejection),
  else read the stored key bytes;
* `checkKey`: on byte-equal key with `offset === 0` read and return the data
  (`returnData`); otherwise, when `offset !== 0`, decrement `offset` — note
  the source decrements even when the key bytes differ — and advance; else
  advance. -/
def getLoop (file : List Nat) (hash : Nat) (key : List Nat)
    (position slotCount : Nat) (slot offset reads fuel : Nat) : ProbeResult :=
  match fuel with
  | 0 => ⟨.fuelOut, slot, reads⟩
  | fuel + 1 =>
    let hashPosition := position + slot % slotCount * 8
    let recordHash := readUInt32LE file hashPosition
    let recordPosition := readUInt32LE file (hashPosition + 4)
    if recordHash = hash then
      let keyLength := readUInt32LE file recordPosition
      let dataLength := readUInt32LE file (recordPosition + 4)
      if keyLength ≠ key.length then
        getLoop file hash key position slotCount (slot + 1) offset (reads + 2) fuel
      else
        let storedKey := (file.drop (recordPosition + 8)).take keyLength
        if storedKey = key ∧ offset = 0 then
          ⟨.found ((file.drop (recordPosition + 8 + keyLength)).take dataLength),
            slot, reads + 4⟩
        else if offset ≠ 0 then
          getLoop file hash key position slotCount (slot + 1) (offset - 1) (reads + 3) fuel
        else
          getLoop file hash key position slotCount (slot + 1) offset (reads + 3) fuel
    else if recordHash = 0 then ⟨.notFound, slot, reads + 1⟩
    else getLoop file hash key position slotCount (slot + 1) offset (reads + 1) fuel

/-- Result of a `get`/`getNext` call: callback outcome, number of `read`
calls, and the reader's bookmark afterwards. -/
structure CallResult where
  out : CallOutcome
  reads : Nat
  bookmarkAfter : Option Bookmark
deriving DecidableEq, Repr

/-- Source `get(key, offset)`.  The bucket is `header[hash & 255]`; on
`slotCount === 0` the callback gets not-found before any `read` (the source
computes `(hash >>> 8) % slotCount` — `NaN` in that case — but never uses it).
Only `returnData` installs a bookmark; a not-found `get` leaves any previous
bookmark in place. -/
def CDBReadable.get (self : CDBReadable) (file : List Nat) (key : List Nat)
    (offset fuel : Nat) : CallResult :=
  let hash := cdbHash key
  let hashtableIndex := hash % 256
  let hashtable := self.header.getD hashtableIndex ⟨0, 0⟩
  if hashtable.slotCount = 0 then ⟨.notFound, 0, self.bookmark⟩
  else
    let slot := hash / 256 % hashtable.slotCount
    let pr := getLoop file hash key hashtable.position hashtable.slotCount slot offset 0 fuel
    match pr.out with
    | .found data =>
      ⟨.found data, pr.reads,
        some ⟨hash, key, hashtable.position, hashtable.slotCount, pr.slotFinal⟩⟩
    | o => ⟨o, pr.reads, self.bookmark⟩

/-- Source `getNext()`.  Without a bookmark the source does nothing at all — the
callback is never invoked.  With a bookmark it runs `readSlot(++slot)` within
the captured context, whose `offset` is necessarily `0`; the captured mutable
`slot` retains the probe's final value whatever the outcome. -/
def CDBReadable.getNext (self : CDBReadable) (file : List Nat) (fuel : Nat) :
    CallResult :=
  match self.bookmark with
  | none => ⟨.notCalled, 0, none⟩
  | some bm =>
    let pr := getLoop file bm.hash bm.key bm.position bm.slotCount (bm.slot + 1) 0 0 fuel
    match pr.out with
    | .found data => ⟨.found data, pr.reads, some { bm with slot := pr.slotFinal }⟩
    | o => ⟨o, pr.reads, some { bm with slot := pr.slotFinal }⟩

/-! ## Block cache (`raw-data-readers`, `RawDataReaderCacheWrapper`)

JavaScript `Map`s become association lists in insertion order; `Map.get`
returning `undefined` becomes `none` (cached blocks are `Buffer`s, always
truthy).  The underlying source is a function `reader start length ↦ bytes`;
each wrapper operation additionally returns how many underlying `read` calls
it issued.  `read` awaits its per-block promises in index order; the state
threading here is sequential, which coincides with the concurrent execution
whenever the blocks of one call are pairwise distinct (they are: the call
reads consecutive block indices). -/
def mapLookup (m : List (Nat × List Nat)) (k : Nat) : Option (List Nat) :=
  (m.find? (fun e => e.1 == k)).map (·.2)

def mapDelete (m : List (Nat × List Nat)) (k : Nat) : List (Nat × List Nat) :=
  m.filter (fun e => e.1 != k)

/-- JavaScript `Map.set`: replace in place if the key is present, else append. -/
def mapSet (m : List (Nat × List Nat)) (k : Nat) (v : List Nat) :
    List (Nat × List Nat) :=
  if (m.find? (fun e => e.1 == k)).isSome then
    m.map (fun e => if e.1 == k then (k, v) else e)
  else m ++ [(k, v)]

structure RawDataReaderCacheWrapper where
  blockSize : Nat
  blocksLimit : Nat
  newCache : List (Nat × List Nat)
  oldCache : List (Nat × List Nat)
deriving DecidableEq, Repr

/-- A freshly constructed wrapper: both generations empty. -/
def RawDataReaderCacheWrapper.mk0 (blockSize blocksLimit : Nat) :
    RawDataReaderCacheWrapper :=
  ⟨blockSize, blocksLimit, [], []⟩

/-- Source `readBlock(index)`: new-generation hit returns directly; an old-generation
hit is deleted from the old map; a miss fetches
`reader(index * blockSize, blockSize)`.  Then, if
`newCache.size >= blocksLimit / 2` (JavaScript float division — as naturals,
`2 * size ≥ blocksLimit`), the old generation is discarded and the new one
rotates into its place; finally the block is `set` into the new generation. -/
def RawDataReaderCacheWrapper.readBlock (reader : Nat → Nat → List Nat)
    (self : RawDataReaderCacheWrapper) (index : Nat) :
    List Nat × RawDataReaderCacheWrapper × Nat :=
  match mapLookup self.newCache index with
  | some cachedBlock => (cachedBlock, self, 0)
  | none =>
    let oldCachedBlock := mapLookup self.oldCache index
    let oldCache' := match oldCachedBlock with
      | some _ => mapDelete self.oldCache index
      | none => self.oldCache
    let (block, fetches) := match oldCachedBlock with
      | some b => (b, 0)
      | none => (reader (index * self.blockSize) self.blockSize, 1)
    let self' :=
      if 2 * self.newCache.length ≥ self.blocksLimit then
        { self with oldCache := self.newCache, newCache := [] }
      else
        { self with oldCache := oldCache' }
    (block, { self' with newCache := mapSet self'.newCache index block }, fetches)

/-- Sequential threading of separate, individually awaited `readBlock` calls
over a list of block indices, accumulating the blocks and the underlying fetch
count.  Each call completes (including its rotation check and `set`) before
the next one starts, which is exactly what a caller gets by awaiting
`readBlock` invocations one at a time. -/
def readBlocks (reader : Nat → Nat → List Nat)
    (self : RawDataReaderCacheWrapper) :
    List Nat → List (List Nat) × RawDataReaderCacheWrapper × Nat
  | [] => ([], self, 0)
  | index :: rest =>
    let r := self.readBlock reader index
    let rs := readBlocks reader r.2.1 rest
    (r.1 :: rs.1, rs.2.1, r.2.2 + rs.2.2)

/-- The common suffix of `readBlock` after the block's bytes are in hand: if
`newCache.size >= blocksLimit / 2` the generations rotate (discarding the old
one), then the block is `set` into the new generation. -/
def insertBlock (self : RawDataReaderCacheWrapper) (index : Nat)
    (block : List Nat) : RawDataReaderCacheWrapper :=
  let self' :=
    if 2 * self.newCache.length ≥ self.blocksLimit then
      { self with oldCache := self.newCache, newCache := [] }
    else self
  { self' with newCache := mapSet self'.newCache index block }

/-- Phase one of `read`'s `Promise.all`: `Array.from`'s mapping loop starts
every covered block's `readBlock` synchronously, in index order.  A
new-generation hit returns its block with no state change.  An old-generation
hit runs to completion synchronously — `oldCachedBlock || await …`
short-circuits the `await`, so the delete, the rotation check and the
`newCache.set` all happen before the next index's lookup.  A miss issues its
underlying read and suspends at the `await`, leaving the state untouched; the
entry records `none`. -/
def startBlocks : RawDataReaderCacheWrapper → List Nat →
    List (Nat × Option (List Nat)) × RawDataReaderCacheWrapper
  | self, [] => ([], self)
  | self, index :: rest =>
    match mapLookup self.newCache index with
    | some cachedBlock =>
      let r := startBlocks self rest
      ((index, some cachedBlock) :: r.1, r.2)
    | none =>
      match mapLookup self.oldCache index with
      | some oldCachedBlock =>
        let r := startBlocks
          (insertBlock { self with oldCache := mapDelete self.oldCache index }
            index oldCachedBlock) rest
        ((index, some oldCachedBlock) :: r.1, r.2)
      | none =>
        let r := startBlocks self rest
        ((index, none) :: r.1, r.2)

/-- Phase two of `read`'s `Promise.all`: the continuations of the suspended
(missed) `readBlock` calls run after every synchronous prefix has finished,
in index order — the order their already-settled promises queued their
reactions, as with the in-memory readers.  Each continuation performs only the
rotation check and the `newCache.set` with its fetched block. -/
def resumeBlocks (reader : Nat → Nat → List Nat) :
    RawDataReaderCacheWrapper → List Nat → RawDataReaderCacheWrapper
  | self, [] => self
  | self, index :: rest =>
    resumeBlocks reader
      (insertBlock self index (reader (index * self.blockSize) self.blockSize))
      rest

/-- The indices whose `readBlock` suspended — each issued exactly one
underlying read. -/
def missedIndices (entries : List (Nat × Option (List Nat))) : List Nat :=
  (entries.filter (fun e => e.2.isNone)).map (fun e => e.1)

/-- The block delivered for one covered index: the cached block for a
synchronous hit, the fetched bytes for a miss. -/
def blockValue (reader : Nat → Nat → List Nat) (blockSize : Nat)
    (e : Nat × Option (List Nat)) : List Nat :=
  match e.2 with
  | some b => b
  | none => reader (e.1 * blockSize) blockSize

/-- Source `read(start, length)`: cover `[start, start + length)` with whole
blocks `startIndex … endIndex - 1` and issue all their `readBlock`s through
`Promise.all` — phase one starts every call synchronously in index order,
phase two resumes the suspended misses — then concatenate the blocks in index
order and slice out the requested range.  The fetch count is the number of
misses. -/
def RawDataReaderCacheWrapper.read (reader : Nat → Nat → List Nat)
    (self : RawDataReaderCacheWrapper) (start length : Nat) :
    List Nat × RawDataReaderCacheWrapper × Nat :=
  let startIndex := start / self.blockSize
  let stop := start + length
  let endIndex := (stop + self.blockSize - 1) / self.blockSize
  let pA := startBlocks self (List.range' startIndex (endIndex - startIndex))
  (((pA.1.map (blockValue reader self.blockSize)).flatten.drop
      (start - startIndex * self.blockSize)).take (stop - start),
    resumeBlocks reader pA.2 (missedIndices pA.1),
    (missedIndices pA.1).length)

/-! ## Writer-session invariant

`WriterOk w keys` collects what a sequence of `put` calls guarantees: 256
bucket lists, the tracked `filePosition` equals `HEADER_SIZE` plus the record
bytes written, each bucket holds at most an eighth of the record bytes (each
record is at least 8 bytes), and every accumulated `(hash, position)` entry
points at the record of one of the written keys. -/
def WriterOk (w : CDBWritable) (keys : List (List Nat)) : Prop :=
  w.hashtables.length = 256 ∧
  w.filePosition = 2048 + w.records.length ∧
  ∀ b : Nat,
    8 * (w.hashtables.getD b []).length ≤ w.records.length ∧
    ∀ e ∈ w.hashtables.getD b [], ∃ k d, k ∈ keys ∧ e.hash = cdbHash k ∧
      2048 ≤ e.position ∧ SegAt w.records (e.position - 2048) (recordBytes k d)

/-! ### C8 — no errored-state guard in `put` -/
/-- A writer session in which an error has occurred during the `close`
attempt: `open` succeeded, one record was written, then the hashtable stream
failed to open — an error path that fires before `writeHashtables`, so the
writer state is exactly the post-`put` state.  The writer keeps no record of
the error. -/
def c8ErroredWriter : CDBWritable :=
  CDBWritable.openWriter.put [97] [49]

/-! ### C1 — round trip at the failing input

The database `put("a", "1"); close()` ("a" = byte 97, "1" = byte 49), reopened.
The claim requires that after `get("a", 0)` returns "1" and one `getNext()`
returns not-found, *any further* `getNext()` also returns not-found.  But the
`bookmark` closure is never cleared: the not-found probe left its captured
`slot` just past the zero sentinel, and the next `getNext` continues from
there, wraps around the 2-slot table, and finds the record for "a" again. -/
def c1File : List Nat :=
  ((putList CDBWritable.openWriter [([97], [49])]).close).file

def c1Reader : CDBReadable := CDBReadable.openReader c1File

/-- Reader state after `get("a", 0)` succeeded. -/
def c1Reader1 : CDBReadable :=
  ⟨c1Reader.header, (c1Reader.get c1File [97] 0 4).bookmarkAfter⟩

/-- Reader state after the first `getNext()` returned not-found. -/
def c1Reader2 : CDBReadable :=
  ⟨c1Reader.header, (c1Reader1.getNext c1File 4).bookmarkAfter⟩

/-! ### C4 — the occurrence counter is consumed by non-matching slots

"op7r4q" and "op5063" are distinct 6-byte keys with the same `cdbHash`
(1711324442), hence the same bucket and the same home slot.  After
`put("op7r4q","1"); put("op5063","2"); close()`, the probe for
`get("op5063", 1)` first visits the slot of "op7r4q": hash and key length
match, the key bytes differ — yet `checkKey`'s `else if (offset !== 0)` branch
decrements the occurrence counter.  The next slot is the single "op5063"
record, now returned at occurrence 1 even though that key was written only
once; under the claimed semantics (counter consumed only by true matches) the
result would be not-found. -/
def c4KeyX : List Nat := [111, 112, 55, 114, 52, 113]

def c4KeyA : List Nat := [111, 112, 53, 48, 54, 51]

def c4File : List Nat :=
  ((putList CDBWritable.openWriter [(c4KeyX, [49]), (c4KeyA, [50])]).close).file

def c4Reader : CDBReadable := CDBReadable.openReader c4File

/-! ### C5 — `getNext` without continuation state never calls back -/
/-- The spec's duplicate-key scenario: `put("dup","1"); put("dup","2")`;
"dup" = bytes [100, 117, 112]. -/
def c5File : List Nat :=
  ((putList CDBWritable.openWriter [([100, 117, 112], [49]), ([100, 117, 112], [50])]).close).file

def c5Reader : CDBReadable := CDBReadable.openReader c5File

/-- Reader state after `get("dup", 0)` returned "1". -/
def c5Reader1 : CDBReadable :=
  ⟨c5Reader.header, (c5Reader.get c5File [100, 117, 112] 0 8).bookmarkAfter⟩

/-- The never-written key `)muA^2$}` whose `cdbHash` is exactly 0. -/
def c6KeyZero : List Nat := [41, 109, 117, 65, 94, 50, 36, 125]

/-- A database holding the single pair `("hm", "v")`; `cdbHash "hm"`
is `5861120`, a multiple of 256, so bucket 0 is non-empty. -/
def c6File : List Nat :=
  ((putList CDBWritable.openWriter [([104, 109], [118])]).close).file

def c6Reader : CDBReadable := CDBReadable.openReader c6File

/-! ### C2 — the builder's occupancy test reads the hash field -/
/-- Modelled from the claim's wording (for comparison with the source): the
same probing builder, but treating a slot as occupied exactly when its
**position** field — the second 32-bit word, at byte offset `slot * 8 + 4` —
is nonzero. -/
def findFreeSlotClaimC2 (buffer : List Nat) (slotCount start : Nat) : Nat :=
  match (List.range slotCount).find?
      (fun k => readUInt32LE buffer ((start + k) % slotCount * 8 + 4) == 0) with
  | some k => (start + k) % slotCount
  | none => start % slotCount

/-- The claim's builder: identical to `getBufferForHashtable` except for the
position-field occupancy test. -/
def getBufferForHashtableClaimC2 (hashtable : List Hashtable) : List Nat :=
  let slotCount := hashtable.length * 2
  hashtable.foldl
    (fun buffer e =>
      let slot := findFreeSlotClaimC2 buffer slotCount (e.hash / 256 % slotCount)
      writeBytesAt buffer (slot * 8) (uInt32Bytes e.hash ++ uInt32Bytes e.position))
    (List.replicate (slotCount * 8) 0)

/-! ### Cache lemmas shared by C9 and C10 -/
/-- A constant byte source for the concrete cache scenarios. -/
def replicateReader : Nat → Nat → List Nat :=
  fun _ length => List.replicate length 7

/-- States of the concrete eviction scenario for C9's second conjunct: block
size 1, blocks limit 2; block 0 is fetched, then blocks 1 and 2 rotate the
generations twice without re-touching block 0. -/
def c9Evict1 : RawDataReaderCacheWrapper :=
  ((RawDataReaderCacheWrapper.mk0 1 2).readBlock replicateReader 0).2.1

def c9Evict2 : RawDataReaderCacheWrapper :=
  (c9Evict1.readBlock replicateReader 1).2.1

def c9Evict3 : RawDataReaderCacheWrapper :=
  (c9Evict2.readBlock replicateReader 2).2.1

theorem readUInt32LE_append_right (A B : List Nat) (off : Nat) :
    readUInt32LE (A ++ B) (A.length + off) = readUInt32LE B off := by
  have h : ∀ k, (A ++ B).getD (A.length + k) 0 = B.getD k 0 := by
    intro k
    rw [List.getD_append_right _ _ _ _ (Nat.le_add_right _ _), Nat.add_sub_cancel_left]
  simp only [readUInt32LE, Nat.add_assoc] at *
  rw [h off, h (off + 1), h (off + 2), h (off + 3)]

theorem readUInt32LE_append_left (A B : List Nat) (off : Nat)
    (h : off + 4 ≤ A.length) : readUInt32LE (A ++ B) off = readUInt32LE A off := by
  have hk : ∀ k, k < 4 → (A ++ B).getD (off + k) 0 = A.getD (off + k) 0 := by
    intro k hklt
    have hlt : off + k < A.length := by omega
    rw [List.getD_append _ _ _ _ hlt]
  have h0 : (A ++ B).getD off 0 = A.getD off 0 := by
    have := hk 0 (by omega); simpa using this
  simp only [readUInt32LE, h0, hk 1 (by omega), hk 2 (by omega), hk 3 (by omega)]

theorem readUInt32LE_uInt32Bytes (v : Nat) (hv : v < 4294967296) :
    readUInt32LE (uInt32Bytes v) 0 = v := by
  simp only [readUInt32LE, uInt32Bytes, Nat.zero_add, List.getD_cons_zero,
    List.getD_cons_succ]
  omega

theorem readUInt32LE_uInt32Bytes_append (v : Nat) (rest : List Nat)
    (hv : v < 4294967296) : readUInt32LE (uInt32Bytes v ++ rest) 0 = v := by
  have := readUInt32LE_append_left (uInt32Bytes v) rest 0 (by simp)
  rw [this, readUInt32LE_uInt32Bytes v hv]

theorem SegAt.refl (seg : List Nat) : SegAt seg 0 seg :=
  ⟨[], [], by simp, rfl⟩

theorem SegAt.append_left (X : List Nat) {file : List Nat} {pos : Nat}
    {seg : List Nat} (h : SegAt file pos seg) :
    SegAt (X ++ file) (X.length + pos) seg := by
  obtain ⟨A, B, rfl, hA⟩ := h
  exact ⟨X ++ A, B, by simp, by simp [hA]⟩

theorem SegAt.append_right {file : List Nat} {pos : Nat} {seg : List Nat}
    (h : SegAt file pos seg) (Y : List Nat) :
    SegAt (file ++ Y) pos seg := by
  obtain ⟨A, B, rfl, hA⟩ := h
  exact ⟨A, B ++ Y, by simp, hA⟩

theorem SegAt.trans {file : List Nat} {p q : Nat} {seg sub : List Nat}
    (h₁ : SegAt file p seg) (h₂ : SegAt seg q sub) : SegAt file (p + q) sub := by
  obtain ⟨A, B, rfl, hA⟩ := h₁
  obtain ⟨C, D, rfl, hC⟩ := h₂
  exact ⟨A ++ C, D ++ B, by simp, by simp [hA, hC]⟩

theorem SegAt.pos_le {file : List Nat} {pos : Nat} {seg : List Nat}
    (h : SegAt file pos seg) : pos + seg.length ≤ file.length := by
  obtain ⟨A, B, rfl, hA⟩ := h
  simp [← hA]

theorem SegAt.read32 {file : List Nat} {pos : Nat} {seg : List Nat}
    (h : SegAt file pos seg) (off : Nat) (hoff : off + 4 ≤ seg.length) :
    readUInt32LE file (pos + off) = readUInt32LE seg off := by
  obtain ⟨A, B, rfl, hA⟩ := h
  rw [← hA, List.append_assoc, readUInt32LE_append_right,
    readUInt32LE_append_left _ _ _ hoff]

theorem SegAt.slice {file : List Nat} {pos : Nat} {seg : List Nat}
    (h : SegAt file pos seg) (off n : Nat) (hoff : off + n ≤ seg.length) :
    (file.drop (pos + off)).take n = (seg.drop off).take n := by
  obtain ⟨A, B, rfl, hA⟩ := h
  rw [← hA, List.append_assoc, List.drop_append, List.drop_append_eq_append_drop]
  have hd : (seg.drop off).length = seg.length - off := by simp
  rw [List.take_append_eq_append_take]
  have : n - (seg.drop off).length = 0 := by omega
  rw [this]
  simp only [List.take_zero, List.append_nil]

/-- Each 8-byte chunk of a concatenation of 8-byte chunks is a segment at the
corresponding offset. -/
theorem segAt_flatten8 (chunks : List (List Nat))
    (h8 : ∀ c ∈ chunks, c.length = 8) :
    ∀ b < chunks.length, SegAt chunks.flatten (8 * b) (chunks.getD b []) := by
  induction chunks with
  | nil => intro b hb; simp at hb
  | cons c tl ih =>
    intro b hb
    match b with
    | 0 =>
      refine ⟨[], tl.flatten, by simp, rfl⟩
    | Nat.succ b =>
      have hc : c.length = 8 := h8 c (by simp)
      have htl := ih (fun x hx => h8 x (by simp [hx])) b (by simpa using hb)
      have := htl.append_left c
      simpa [hc, Nat.mul_succ, Nat.add_comm] using this

theorem originalHashStep_lt (hash b : Nat) :
    originalHashStep hash b < 4294967296 := by
  have h1 : (hash * 32 % 4294967296 + hash) % 4294967296 < 4294967296 :=
    Nat.mod_lt _ (by norm_num)
  have h2 : b % 4294967296 < 4294967296 := Nat.mod_lt _ (by norm_num)
  have h32 : (4294967296 : Nat) = 2 ^ 32 := by norm_num
  rw [originalHashStep]
  rw [h32] at h1 h2 ⊢
  exact Nat.xor_lt_two_pow h1 h2

theorem foldl_originalHashStep_lt (key : List Nat)
    (init : Nat) (hinit : init < 4294967296) :
    key.foldl originalHashStep init < 4294967296 := by
  induction key generalizing init with
  | nil => simpa using hinit
  | cons b tl ih =>
    exact ih _ (originalHashStep_lt init b)

theorem cdbHash_lt (key : List Nat) : cdbHash key < 4294967296 :=
  foldl_originalHashStep_lt key 5381 (by norm_num)

/-! ## Shared helper lemmas -/
theorem getD_set_self {α : Type} (l : List α) (i : Nat) (a d : α)
    (h : i < l.length) : (l.set i a).getD i d = a := by
  rw [List.getD_eq_getElem?_getD, List.getElem?_set_self h]
  rfl

theorem getD_set_ne {α : Type} (l : List α) (i j : Nat) (a d : α)
    (h : i ≠ j) : (l.set i a).getD j d = l.getD j d := by
  rw [List.getD_eq_getElem?_getD, List.getElem?_set_ne h, ← List.getD_eq_getElem?_getD]

theorem find?_ext {α : Type} (l : List α) (p q : α → Bool)
    (h : ∀ a ∈ l, p a = q a) : l.find? p = l.find? q := by
  induction l with
  | nil => rfl
  | cons x tl ih =>
    have hx := h x (by simp)
    rw [List.find?_cons, List.find?_cons, hx, ih (fun a ha => h a (by simp [ha]))]

theorem readUInt32LE_lt (l : List Nat) (off : Nat) (h : ∀ b ∈ l, b < 256) :
    readUInt32LE l off < 4294967296 := by
  have hg : ∀ k, l.getD k 0 < 256 := by
    intro k
    by_cases hk : k < l.length
    · rw [List.getD_eq_getElem l 0 hk]
      exact h _ (List.getElem_mem hk)
    · rw [List.getD_eq_default _ _ (by omega)]; omega
  have h0 := hg off
  have h1 := hg (off + 1)
  have h2 := hg (off + 2)
  have h3 := hg (off + 3)
  rw [readUInt32LE]; omega

/-! ## The byte-level hashtable builder refines the slot-level one -/
theorem segAt_flatMap8 {α : Type} (g : α → List Nat) (h8 : ∀ a, (g a).length = 8)
    (l : List α) (d : α) :
    ∀ b, b < l.length → SegAt (l.flatMap g) (8 * b) (g (l.getD b d)) := by
  induction l with
  | nil => intro b hb; simp at hb
  | cons x tl ih =>
    intro b hb
    match b with
    | 0 => exact ⟨[], tl.flatMap g, by simp, rfl⟩
    | Nat.succ b =>
      have := (ih b (by simpa using hb)).append_left (g x)
      simpa [h8 x, Nat.mul_succ, Nat.add_comm] using this

theorem length_flatMap8 {α : Type} (g : α → List Nat) (h8 : ∀ a, (g a).length = 8)
    (l : List α) : (l.flatMap g).length = 8 * l.length := by
  induction l with
  | nil => rfl
  | cons x tl ih => simp [h8 x, ih, Nat.mul_succ, Nat.add_comm]

theorem length_serializeSlots (slots : List (Nat × Nat)) :
    (serializeSlots slots).length = 8 * slots.length :=
  length_flatMap8 _ (fun s => by simp [uInt32Bytes]) slots

theorem serializeSlots_replicate (n : Nat) :
    serializeSlots (List.replicate n (0, 0)) = List.replicate (n * 8) 0 := by
  induction n with
  | zero => rfl
  | succ n ih =>
    rw [List.replicate_succ, serializeSlots, List.flatMap_cons, ← serializeSlots, ih]
    show uInt32Bytes 0 ++ uInt32Bytes 0 ++ List.replicate (n * 8) 0 =
      List.replicate ((n + 1) * 8) 0
    have : (n + 1) * 8 = 8 + n * 8 := by ring
    rw [this, List.replicate_add]
    rfl

theorem segAt_serializeSlots (slots : List (Nat × Nat)) (j : Nat)
    (hj : j < slots.length) :
    SegAt (serializeSlots slots) (8 * j)
      (uInt32Bytes (slots.getD j (0, 0)).1 ++ uInt32Bytes (slots.getD j (0, 0)).2) := by
  rw [serializeSlots]
  exact segAt_flatMap8 (fun s => uInt32Bytes s.1 ++ uInt32Bytes s.2)
    (fun s => by simp [uInt32Bytes]) slots (0, 0) j hj

/-- Reading the hash field of slot `j` from a serialized slot array. -/
theorem read32_serializeSlots_hash (slots : List (Nat × Nat)) (j : Nat)
    (hj : j < slots.length) (hwf : (slots.getD j (0, 0)).1 < 4294967296) :
    readUInt32LE (serializeSlots slots) (j * 8) = (slots.getD j (0, 0)).1 := by
  have hseg := segAt_serializeSlots slots j hj
  have := hseg.read32 0 (by simp)
  rw [Nat.add_zero] at this
  rw [Nat.mul_comm j 8, this, readUInt32LE_append_left _ _ _ (by simp),
    readUInt32LE_uInt32Bytes _ hwf]

/-- Reading the position field of slot `j` from a serialized slot array. -/
theorem read32_serializeSlots_pos (slots : List (Nat × Nat)) (j : Nat)
    (hj : j < slots.length) (hwf : (slots.getD j (0, 0)).2 < 4294967296) :
    readUInt32LE (serializeSlots slots) (j * 8 + 4) = (slots.getD j (0, 0)).2 := by
  have hseg := segAt_serializeSlots slots j hj
  have h4 := hseg.read32 4 (by simp)
  rw [Nat.mul_comm j 8, h4]
  have : (4 : Nat) = (uInt32Bytes (slots.getD j (0, 0)).1).length + 0 := by simp
  rw [this, readUInt32LE_append_right, readUInt32LE_uInt32Bytes _ hwf]

theorem writeBytesAt_serializeSlots (slots : List (Nat × Nat)) (j : Nat)
    (h p : Nat) (hj : j < slots.length) :
    writeBytesAt (serializeSlots slots) (j * 8) (uInt32Bytes h ++ uInt32Bytes p) =
      serializeSlots (slots.set j (h, p)) := by
  induction slots generalizing j with
  | nil => simp at hj
  | cons s tl ih =>
    match j with
    | 0 =>
      show List.take 0 _ ++ _ ++ List.drop (0 + 8) ((uInt32Bytes s.1 ++ uInt32Bytes s.2) ++ serializeSlots tl) = _
      have h8 : (uInt32Bytes s.1 ++ uInt32Bytes s.2).length = 8 := by simp
      rw [List.take_zero, List.nil_append, Nat.zero_add, ← h8,
        ← Nat.add_zero (uInt32Bytes s.1 ++ uInt32Bytes s.2).length, List.drop_append,
        List.drop_zero]
      rfl
    | Nat.succ j =>
      have hj' : j < tl.length := by simpa using hj
      have harith : Nat.succ j * 8 = (uInt32Bytes s.1 ++ uInt32Bytes s.2).length + j * 8 := by
        simp [Nat.succ_mul, Nat.add_comm]
      show List.take (Nat.succ j * 8) ((uInt32Bytes s.1 ++ uInt32Bytes s.2) ++ serializeSlots tl) ++ _ ++
          List.drop (Nat.succ j * 8 + (uInt32Bytes h ++ uInt32Bytes p).length)
            ((uInt32Bytes s.1 ++ uInt32Bytes s.2) ++ serializeSlots tl) = _
      have harith2 : Nat.succ j * 8 + (uInt32Bytes h ++ uInt32Bytes p).length =
          (uInt32Bytes s.1 ++ uInt32Bytes s.2).length +
            (j * 8 + (uInt32Bytes h ++ uInt32Bytes p).length) := by
        simp [Nat.succ_mul]
        omega
      rw [harith2, List.drop_append, harith, List.take_append]
      have := ih j hj'
      rw [writeBytesAt] at this
      show (uInt32Bytes s.1 ++ uInt32Bytes s.2) ++
          (List.take (j * 8) (serializeSlots tl) ++ _ ++
            List.drop (j * 8 + (uInt32Bytes h ++ uInt32Bytes p).length) (serializeSlots tl)) = _
      rw [this]
      rfl

theorem findFreeSlot_eq_findFreeSlotIdx (slots : List (Nat × Nat)) (start : Nat)
    (hwf : ∀ s ∈ slots, s.1 < 4294967296) :
    findFreeSlot (serializeSlots slots) slots.length start =
      findFreeSlotIdx slots slots.length start := by
  rw [findFreeSlot, findFreeSlotIdx]
  have hext : ∀ k ∈ List.range slots.length,
      (readUInt32LE (serializeSlots slots) ((start + k) % slots.length * 8) == 0) =
        ((slots.getD ((start + k) % slots.length) (0, 0)).1 == 0) := by
    intro k hk
    have hkl : k < slots.length := List.mem_range.mp hk
    have hsc : 0 < slots.length := by omega
    have hjlt : (start + k) % slots.length < slots.length := Nat.mod_lt _ hsc
    have hwfj : (slots.getD ((start + k) % slots.length) (0, 0)).1 < 4294967296 := by
      apply hwf
      rw [List.getD_eq_getElem _ _ hjlt]
      exact List.getElem_mem hjlt
    rw [read32_serializeSlots_hash slots _ hjlt hwfj]
  rw [find?_ext _ _ _ hext]

theorem buildSlots_length_foldl (entries : List Hashtable) (sc : Nat) :
    ∀ slots : List (Nat × Nat),
      (entries.foldl (fun sl e => insertSlot sl sc e) slots).length = slots.length := by
  induction entries with
  | nil => intro slots; rfl
  | cons e tl ih =>
    intro slots
    rw [List.foldl_cons, ih]
    simp [insertSlot]

theorem buildSlots_length (entries : List Hashtable) :
    (buildSlots entries).length = entries.length * 2 := by
  rw [buildSlots, buildSlots_length_foldl]
  simp

theorem foldl_insert_serialize (sc : Nat) (hsc : 0 < sc) :
    ∀ (es : List Hashtable) (slots : List (Nat × Nat)),
      slots.length = sc → (∀ s ∈ slots, s.1 < 4294967296 ∧ s.2 < 4294967296) →
      (∀ e ∈ es, e.hash < 4294967296 ∧ e.position < 4294967296) →
      es.foldl (fun buffer e => insertHashtableEntry buffer sc e) (serializeSlots slots) =
        serializeSlots (es.foldl (fun sl e => insertSlot sl sc e) slots) := by
  intro es
  induction es with
  | nil => intro slots _ _ _; rfl
  | cons e etl ih =>
    intro slots hlen hswf hewf
    rw [List.foldl_cons, List.foldl_cons]
    have hstep : insertHashtableEntry (serializeSlots slots) sc e =
        serializeSlots (insertSlot slots sc e) := by
      rw [insertHashtableEntry, insertSlot, ← hlen,
        findFreeSlot_eq_findFreeSlotIdx slots _ (fun s hs => (hswf s hs).1)]
      have hsc' : 0 < slots.length := by rw [hlen]; omega
      have hslot : findFreeSlotIdx slots slots.length (e.hash / 256 % slots.length) <
          slots.length := by
        rw [findFreeSlotIdx]
        cases hfind : (List.range slots.length).find?
            (fun k => (slots.getD ((e.hash / 256 % slots.length + k) % slots.length) (0, 0)).1 == 0) with
        | some k => exact Nat.mod_lt _ hsc'
        | none => exact Nat.mod_lt _ hsc'
      exact writeBytesAt_serializeSlots slots _ e.hash e.position hslot
    rw [hstep]
    refine ih _ (by simp [insertSlot, hlen]) ?_
      (fun x hx => hewf x (by simp [hx]))
    intro s hs
    rcases List.mem_or_eq_of_mem_set hs with h' | h'
    · exact hswf s h'
    · rw [h']
      exact hewf e (by simp)

/-- The byte-level builder is the serialization of the slot-level builder. -/
theorem getBufferForHashtable_eq_serializeSlots (hashtable : List Hashtable)
    (hwf : ∀ e ∈ hashtable, e.hash < 4294967296 ∧ e.position < 4294967296) :
    getBufferForHashtable hashtable = serializeSlots (buildSlots hashtable) := by
  cases hashtable with
  | nil => rfl
  | cons e0 tl =>
    rw [getBufferForHashtable, buildSlots, ← serializeSlots_replicate]
    exact foldl_insert_serialize ((e0 :: tl).length * 2) (by simp) (e0 :: tl)
      (List.replicate ((e0 :: tl).length * 2) (0, 0)) (by simp)
      (by intro s hs; rw [List.eq_of_mem_replicate hs]; norm_num) hwf

theorem getD_replicate {α : Type} (n i : Nat) (a : α) :
    (List.replicate n a).getD i a = a := by
  by_cases hi : i < n
  · rw [List.getD_eq_getElem _ _ (by simpa using hi)]
    exact List.getElem_replicate _ _
  · exact List.getD_eq_default _ _ (by simpa using hi)

theorem writerOk_open : WriterOk CDBWritable.openWriter [] := by
  refine ⟨by simp [CDBWritable.openWriter], rfl, ?_⟩
  intro b
  have hempty : CDBWritable.openWriter.hashtables.getD b [] = [] :=
    getD_replicate 256 b []
  rw [hempty]
  exact ⟨by simp, by simp⟩

theorem writerOk_put (w : CDBWritable) (keys : List (List Nat))
    (key data : List Nat) (h : WriterOk w keys) :
    WriterOk (w.put key data) (keys ++ [key]) := by
  obtain ⟨hlen, hfp, hbucket⟩ := h
  have hidx : cdbHash key % 256 < w.hashtables.length := by
    rw [hlen]; exact Nat.mod_lt _ (by norm_num)
  refine ⟨by simpa [CDBWritable.put] using hlen, ?_, ?_⟩
  · show w.filePosition + (8 + key.length + data.length) =
      2048 + (w.records ++ recordBytes key data).length
    simp [hfp]
    omega
  · intro b
    by_cases hb : b = cdbHash key % 256
    · subst hb
      have hset : (w.put key data).hashtables.getD (cdbHash key % 256) [] =
          w.hashtables.getD (cdbHash key % 256) [] ++
            [⟨cdbHash key, w.filePosition⟩] := by
        show (w.hashtables.set _ _).getD _ [] = _
        exact getD_set_self _ _ _ _ hidx
      rw [hset]
      constructor
      · have := (hbucket (cdbHash key % 256)).1
        show 8 * (_ ++ [_]).length ≤ (w.records ++ recordBytes key data).length
        simp only [List.length_append, List.length_cons, List.length_nil,
          length_recordBytes]
        omega
      · intro e he
        rcases List.mem_append.mp he with hold | hnew
        · obtain ⟨k, d, hk, hh, hp, hseg⟩ := (hbucket (cdbHash key % 256)).2 e hold
          exact ⟨k, d, by simp [hk], hh, hp, hseg.append_right _⟩
        · have he' : e = ⟨cdbHash key, w.filePosition⟩ := by simpa using hnew
          subst he'
          refine ⟨key, data, by simp, rfl, by show 2048 ≤ w.filePosition; omega, ?_⟩
          show SegAt (w.records ++ recordBytes key data)
            (w.filePosition - 2048) (recordBytes key data)
          have : w.filePosition - 2048 = w.records.length := by omega
          rw [this]
          exact ⟨w.records, [], by simp, rfl⟩
    · have hset : (w.put key data).hashtables.getD b [] = w.hashtables.getD b [] := by
        show (w.hashtables.set _ _).getD b [] = _
        exact getD_set_ne _ _ _ _ _ (fun hc => hb hc.symm)
      rw [hset]
      constructor
      · have := (hbucket b).1
        show 8 * _ ≤ (w.records ++ recordBytes key data).length
        simp only [List.length_append]
        omega
      · intro e he
        obtain ⟨k, d, hk, hh, hp, hseg⟩ := (hbucket b).2 e he
        exact ⟨k, d, by simp [hk], hh, hp, hseg.append_right _⟩

theorem writerOk_putList (pairs : List (List Nat × List Nat)) :
    ∀ (w : CDBWritable) (keys : List (List Nat)), WriterOk w keys →
      WriterOk (putList w pairs) (keys ++ pairs.map Prod.fst) := by
  induction pairs with
  | nil => intro w keys h; simpa [putList] using h
  | cons p tl ih =>
    intro w keys h
    have step := writerOk_put w keys p.1 p.2 h
    have := ih (w.put p.1 p.2) (keys ++ [p.1]) step
    show WriterOk (putList (w.put p.1 p.2) tl) _
    rw [List.map_cons]
    have harr : keys ++ [p.1] ++ tl.map Prod.fst = keys ++ (p.1 :: tl.map Prod.fst) := by
      simp
    rw [← harr]
    exact this

/-! ## The finalize loop: positions and layout of the hashtable region -/
theorem closeBuckets_length (hts : List (List Hashtable)) :
    ∀ p : Nat, (closeBuckets p hts).1.length = hts.length := by
  induction hts with
  | nil => intro p; rfl
  | cons ht tl ih =>
    intro p
    show ((⟨p, ht.length * 2⟩ : WriteHeader) :: (closeBuckets _ tl).1).length = _
    simp [ih]

theorem closeBuckets_spec (hts : List (List Hashtable)) :
    ∀ (p : Nat) (b : Nat), b < hts.length →
      ∃ pre : Nat,
        (closeBuckets p hts).1.getD b ⟨0, 0⟩ =
          ⟨p + pre, (hts.getD b []).length * 2⟩ ∧
        SegAt (closeBuckets p hts).2 pre (getBufferForHashtable (hts.getD b [])) := by
  induction hts with
  | nil => intro p b hb; simp at hb
  | cons ht tl ih =>
    intro p b hb
    match b with
    | 0 =>
      refine ⟨0, ?_, ?_⟩
      · show (⟨p, ht.length * 2⟩ : WriteHeader) = _
        simp
      · show SegAt (getBufferForHashtable ht ++ (closeBuckets _ tl).2) 0
          (getBufferForHashtable ht)
        exact (SegAt.refl _).append_right _
    | Nat.succ b =>
      obtain ⟨pre, hhdr, hseg⟩ := ih (p + (getBufferForHashtable ht).length) b
        (by simpa using hb)
      refine ⟨(getBufferForHashtable ht).length + pre, ?_, ?_⟩
      · show (closeBuckets (p + (getBufferForHashtable ht).length) tl).1.getD b ⟨0, 0⟩ = _
        rw [hhdr]
        show (⟨p + (getBufferForHashtable ht).length + pre, _⟩ : WriteHeader) = _
        simp [Nat.add_assoc]
      · show SegAt (getBufferForHashtable ht ++ (closeBuckets _ tl).2) _ _
        exact hseg.append_left _

/-! ## Facts about the slot-level builder needed by the reader proofs -/
theorem foldl_insert_mem (sc : Nat) (es : List Hashtable) :
    ∀ (slots : List (Nat × Nat)) (s : Nat × Nat),
      s ∈ es.foldl (fun sl e => insertSlot sl sc e) slots →
      s ∈ slots ∨ ∃ e ∈ es, s = (e.hash, e.position) := by
  induction es with
  | nil => intro slots s hs; exact Or.inl hs
  | cons e etl ih =>
    intro slots s hs
    rcases ih (insertSlot slots sc e) s hs with hmem | ⟨e', he', hse⟩
    · rcases List.mem_or_eq_of_mem_set hmem with h' | h'
      · exact Or.inl h'
      · exact Or.inr ⟨e, by simp, h'⟩
    · exact Or.inr ⟨e', by simp [he'], hse⟩

theorem buildSlots_mem (entries : List Hashtable) (s : Nat × Nat)
    (hs : s ∈ buildSlots entries) :
    s = (0, 0) ∨ ∃ e ∈ entries, s = (e.hash, e.position) := by
  rcases foldl_insert_mem _ entries _ s hs with hmem | h
  · exact Or.inl (List.eq_of_mem_replicate hmem)
  · exact Or.inr h

theorem countP_set_le (p : Nat × Nat → Bool) (l : List (Nat × Nat)) (i : Nat)
    (x : Nat × Nat) : (l.set i x).countP p ≤ l.countP p + 1 := by
  by_cases hi : i < l.length
  · rw [List.countP_set p l i x hi]
    have : l.countP p - (if p l[i] = true then 1 else 0) ≤ l.countP p := by omega
    by_cases hx : p x = true
    · rw [if_pos hx]
      omega
    · rw [if_neg hx]
      omega
  · rw [List.set_eq_of_length_le (by omega)]
    omega

theorem foldl_insert_countP (sc : Nat) (p : Nat × Nat → Bool) (es : List Hashtable) :
    ∀ slots : List (Nat × Nat),
      (es.foldl (fun sl e => insertSlot sl sc e) slots).countP p ≤
        slots.countP p + es.length := by
  induction es with
  | nil => intro slots; simp
  | cons e etl ih =>
    intro slots
    calc (etl.foldl (fun sl e => insertSlot sl sc e) (insertSlot slots sc e)).countP p
        ≤ (insertSlot slots sc e).countP p + etl.length := ih _
      _ ≤ slots.countP p + 1 + etl.length := by
          have hset := countP_set_le p slots
            (findFreeSlotIdx slots sc (e.hash / 256 % sc)) (e.hash, e.position)
          have hins : (insertSlot slots sc e).countP p =
              (slots.set (findFreeSlotIdx slots sc (e.hash / 256 % sc))
                (e.hash, e.position)).countP p := rfl
          omega
      _ ≤ slots.countP p + (e :: etl).length := by simp; omega

theorem countP_replicate_zero (p : Nat × Nat → Bool) (n : Nat) (hp : p (0, 0) = false) :
    (List.replicate n (0, 0)).countP p = 0 := by
  induction n with
  | zero => rfl
  | succ n ih =>
    rw [List.replicate_succ, List.countP_cons, hp, ih]
    simp

/-- A non-empty bucket's slot table always retains a slot whose hash field is
zero: only `n` of the `2n` slots are ever written. -/
theorem buildSlots_exists_zero (entries : List Hashtable) (hne : entries ≠ []) :
    ∃ j, j < (buildSlots entries).length ∧
      ((buildSlots entries).getD j (0, 0)).1 = 0 := by
  have hcount : (buildSlots entries).countP (fun s => s.1 != 0) ≤ entries.length := by
    have := foldl_insert_countP (entries.length * 2) (fun s => s.1 != 0) entries
      (List.replicate (entries.length * 2) (0, 0))
    rw [countP_replicate_zero _ _ (by simp)] at this
    simpa [buildSlots] using this
  have hlen : (buildSlots entries).length = entries.length * 2 := buildSlots_length entries
  have hne' : 0 < entries.length := by
    cases entries with
    | nil => exact absurd rfl hne
    | cons _ _ => simp
  have hlt : (buildSlots entries).countP (fun s => s.1 != 0) <
      (buildSlots entries).length := by omega
  have : ¬ ∀ s ∈ buildSlots entries, (s.1 != 0) = true := by
    intro hall
    rw [← List.countP_eq_length.mpr hall] at hlt
    omega
  push_neg at this
  obtain ⟨s, hs, hsval⟩ := this
  obtain ⟨j, hj, hjs⟩ := List.getElem_of_mem hs
  refine ⟨j, hj, ?_⟩
  rw [List.getD_eq_getElem _ _ hj, hjs]
  simpa using hsval

/-- Any slot index is reached from any starting slot within `sc` probe
steps. -/
theorem exists_probe_dist (start j sc : Nat) (hj : j < sc) :
    ∃ dist, dist < sc ∧ (start + dist) % sc = j := by
  have hsc : 0 < sc := by omega
  have hdm := Nat.div_add_mod start sc
  have hr : start % sc < sc := Nat.mod_lt _ hsc
  by_cases hle : start % sc ≤ j
  · refine ⟨j - start % sc, by omega, ?_⟩
    have : start + (j - start % sc) = sc * (start / sc) + j := by omega
    rw [this, Nat.mul_add_mod, Nat.mod_eq_of_lt hj]
  · refine ⟨sc + j - start % sc, by omega, ?_⟩
    have hms : sc * (start / sc + 1) = sc * (start / sc) + sc := by ring
    have : start + (sc + j - start % sc) = sc * (start / sc + 1) + j := by omega
    rw [this, Nat.mul_add_mod, Nat.mod_eq_of_lt hj]

/-! ## The probe loop on a well-formed bucket -/
/-- One unfolding of the probe loop, with the local variables
(`hashPosition`, `recordHash`, `recordPosition`, `keyLength`, `dataLength`,
`storedKey`) expanded. -/
theorem getLoop_succ (file : List Nat) (hash : Nat) (key : List Nat)
    (position sc slot offset reads fuel : Nat) :
    getLoop file hash key position sc slot offset reads (fuel + 1) =
      (if readUInt32LE file (position + slot % sc * 8) = hash then
        if readUInt32LE file (readUInt32LE file (position + slot % sc * 8 + 4)) ≠
            key.length then
          getLoop file hash key position sc (slot + 1) offset (reads + 2) fuel
        else
          if (file.drop (readUInt32LE file (position + slot % sc * 8 + 4) + 8)).take
                (readUInt32LE file (readUInt32LE file (position + slot % sc * 8 + 4))) =
                key ∧ offset = 0 then
            ⟨.found ((file.drop (readUInt32LE file (position + slot % sc * 8 + 4) + 8 +
                readUInt32LE file (readUInt32LE file (position + slot % sc * 8 + 4)))).take
                (readUInt32LE file (readUInt32LE file (position + slot % sc * 8 + 4) + 4))),
              slot, reads + 4⟩
          else if offset ≠ 0 then
            getLoop file hash key position sc (slot + 1) (offset - 1) (reads + 3) fuel
          else
            getLoop file hash key position sc (slot + 1) offset (reads + 3) fuel
      else if readUInt32LE file (position + slot % sc * 8) = 0 then
        ⟨.notFound, slot, reads + 1⟩
      else getLoop file hash key position sc (slot + 1) offset (reads + 1) fuel) :=
  rfl

/-- The probe loop reports not-found for a nonzero query hash over a bucket
whose slots either look free (hash field 0) or hold the record of some key
other than the query key, provided a free-looking slot lies within `dist`
probe steps and the fuel covers that distance. -/
theorem getLoop_notFound_of_zero
    (file : List Nat) (hash : Nat) (key : List Nat) (position sc : Nat)
    (hhash : hash ≠ 0) (hsc : 0 < sc)
    (slots : List (Nat × Nat))
    (hseg : ∀ j, j < sc →
      readUInt32LE file (position + j * 8) = (slots.getD j (0, 0)).1 ∧
      readUInt32LE file (position + j * 8 + 4) = (slots.getD j (0, 0)).2)
    (hslot : ∀ j, j < sc → (slots.getD j (0, 0)).1 = 0 ∨
      ∃ k : List Nat, k ≠ key ∧ (slots.getD j (0, 0)).1 = cdbHash k ∧
        readUInt32LE file ((slots.getD j (0, 0)).2) = k.length ∧
        (file.drop ((slots.getD j (0, 0)).2 + 8)).take k.length = k) :
    ∀ dist slot offset reads fuel,
      (slots.getD ((slot + dist) % sc) (0, 0)).1 = 0 →
      dist < fuel →
      (getLoop file hash key position sc slot offset reads fuel).out = .notFound := by
  intro dist
  induction dist with
  | zero =>
    intro slot offset reads fuel hz hf
    match fuel, hf with
    | fuel + 1, _ =>
      have hj : slot % sc < sc := Nat.mod_lt _ hsc
      have hread1 := (hseg (slot % sc) hj).1
      rw [Nat.add_zero] at hz
      rw [getLoop_succ, hread1, hz, if_neg (fun h : (0 : Nat) = hash => hhash h.symm),
        if_pos rfl]
  | succ d ih =>
    intro slot offset reads fuel hz hf
    match fuel, hf with
    | fuel + 1, hf =>
      have hj : slot % sc < sc := Nat.mod_lt _ hsc
      have hread1 := (hseg (slot % sc) hj).1
      have hread2 := (hseg (slot % sc) hj).2
      have hzd : (slots.getD ((slot + 1 + d) % sc) (0, 0)).1 = 0 := by
        have harr : slot + 1 + d = slot + (d + 1) := by omega
        rw [harr]; exact hz
      have hfd : d < fuel := by omega
      rcases hslot (slot % sc) hj with hzero | ⟨k, hkne, hkh, hkl, hks⟩
      · rw [getLoop_succ, hread1, hzero,
          if_neg (fun h : (0 : Nat) = hash => hhash h.symm), if_pos rfl]
      · rw [getLoop_succ, hread1, hread2, hkh, hkl]
        by_cases hcol : cdbHash k = hash
        · rw [if_pos hcol]
          by_cases hlen : k.length = key.length
          · rw [if_neg (not_not_intro hlen), hks,
              if_neg (fun hand => hkne hand.1)]
            by_cases hoff : offset ≠ 0
            · rw [if_pos hoff]
              exact ih (slot + 1) (offset - 1) (reads + 3) fuel hzd hfd
            · rw [if_neg hoff]
              exact ih (slot + 1) offset (reads + 3) fuel hzd hfd
          · rw [if_pos hlen]
            exact ih (slot + 1) offset (reads + 2) fuel hzd hfd
        · rw [if_neg hcol]
          by_cases hk0 : cdbHash k = 0
          · rw [if_pos hk0]
          · rw [if_neg hk0]
            exact ih (slot + 1) offset (reads + 1) fuel hzd hfd

/-! ## Layout of a closed file, as the reader sees it -/
theorem getD_range_map {β : Type} (n b : Nat) (f : Nat → β) (d : β) (hb : b < n) :
    ((List.range n).map f).getD b d = f b := by
  have hlen : b < ((List.range n).map f).length := by simpa using hb
  rw [List.getD_eq_getElem _ _ hlen, List.getElem_map, List.getElem_range]

theorem length_getBufferForHeader (hdr : List WriteHeader) :
    (getBufferForHeader hdr).length = 8 * hdr.length :=
  length_flatMap8 _ (fun e => by simp [uInt32Bytes]) hdr

theorem segAt_getBufferForHeader (hdr : List WriteHeader) (b : Nat)
    (hb : b < hdr.length) :
    SegAt (getBufferForHeader hdr) (8 * b)
      (uInt32Bytes (hdr.getD b ⟨0, 0⟩).position ++
        uInt32Bytes (hdr.getD b ⟨0, 0⟩).slots) := by
  rw [getBufferForHeader]
  exact segAt_flatMap8 (fun e => uInt32Bytes e.position ++ uInt32Bytes e.slots)
    (fun e => by simp [uInt32Bytes]) hdr ⟨0, 0⟩ b hb

theorem readUInt32LE_recordBytes_zero (k d : List Nat) (hk : k.length < 4294967296) :
    readUInt32LE (recordBytes k d) 0 = k.length := by
  have hassoc : recordBytes k d =
      uInt32Bytes k.length ++ (uInt32Bytes d.length ++ k ++ d) := by
    simp [recordBytes, List.append_assoc]
  rw [hassoc, readUInt32LE_uInt32Bytes_append _ _ hk]

theorem recordBytes_drop8_take (k d : List Nat) :
    ((recordBytes k d).drop 8).take k.length = k := by
  have hassoc : recordBytes k d =
      (uInt32Bytes k.length ++ uInt32Bytes d.length) ++ (k ++ d) := by
    simp [recordBytes, List.append_assoc]
  have h8 : (8 : Nat) = (uInt32Bytes k.length ++ uInt32Bytes d.length).length := by simp
  rw [hassoc, h8, List.drop_left]
  exact List.take_left k d

theorem close_file_length (w : CDBWritable) :
    w.close.file.length = (getBufferForHeader w.close.header).length +
      (w.records.length + (closeBuckets w.filePosition w.hashtables).2.length) := by
  show (getBufferForHeader (closeBuckets w.filePosition w.hashtables).1 ++
      w.records ++ (closeBuckets w.filePosition w.hashtables).2).length =
    (getBufferForHeader (closeBuckets w.filePosition w.hashtables).1).length +
      (w.records.length + (closeBuckets w.filePosition w.hashtables).2.length)
  simp [List.length_append, Nat.add_assoc]

/-- Everything the reader sees about bucket `b` of a closed, well-formed
writer session: the parsed header entry holds the bucket's table position and
slot count `2n`, the serialized slot-level table sits at that position in the
file, and every accumulated entry points at the intact record of one of the
written keys. -/
theorem close_facts (w : CDBWritable) (keys : List (List Nat))
    (hok : WriterOk w keys) (hsz : w.close.file.length < 4294967296)
    (b : Nat) (hb : b < 256) :
    ∃ pos,
      (CDBReadable.openReader w.close.file).header.getD b ⟨0, 0⟩ =
        ⟨pos, (w.hashtables.getD b []).length * 2⟩ ∧
      SegAt w.close.file pos (serializeSlots (buildSlots (w.hashtables.getD b []))) ∧
      ∀ e ∈ w.hashtables.getD b [], ∃ k d : List Nat, k ∈ keys ∧ e.hash = cdbHash k ∧
        e.hash < 4294967296 ∧ e.position < 4294967296 ∧
        readUInt32LE w.close.file e.position = k.length ∧
        (w.close.file.drop (e.position + 8)).take k.length = k := by
  obtain ⟨hlen256, hfp, hbucket⟩ := hok
  have hhdr_eq : w.close.header = (closeBuckets w.filePosition w.hashtables).1 := rfl
  have hfile : w.close.file =
      getBufferForHeader w.close.header ++
        (w.records ++ (closeBuckets w.filePosition w.hashtables).2) := by
    rw [← List.append_assoc]; rfl
  have hhdrlen : w.close.header.length = 256 := by
    rw [hhdr_eq, closeBuckets_length, hlen256]
  have hHlen : (getBufferForHeader w.close.header).length = 2048 := by
    rw [length_getBufferForHeader, hhdrlen]
  obtain ⟨pre, hentry, hsegT⟩ :=
    closeBuckets_spec w.hashtables w.filePosition b (by rw [hlen256]; exact hb)
  have hrec : ∀ e ∈ w.hashtables.getD b [], ∃ k d : List Nat, k ∈ keys ∧
      e.hash = cdbHash k ∧ e.hash < 4294967296 ∧ e.position < 4294967296 ∧
      readUInt32LE w.close.file e.position = k.length ∧
      (w.close.file.drop (e.position + 8)).take k.length = k := by
    intro e he
    obtain ⟨k, d, hk, hh, hp2048, hsegR⟩ := (hbucket b).2 e he
    have hsegF : SegAt w.close.file e.position (recordBytes k d) := by
      have h1 := (hsegR.append_right
          (closeBuckets w.filePosition w.hashtables).2).append_left
        (getBufferForHeader w.close.header)
      rw [← hfile] at h1
      have harith : (getBufferForHeader w.close.header).length + (e.position - 2048) =
          e.position := by
        rw [hHlen]; omega
      rwa [harith] at h1
    have hbound := hsegF.pos_le
    rw [length_recordBytes] at hbound
    have hklt : k.length < 4294967296 := by omega
    refine ⟨k, d, hk, hh, hh ▸ cdbHash_lt k, by omega, ?_, ?_⟩
    · have hr := hsegF.read32 0 (by rw [length_recordBytes]; omega)
      rw [Nat.add_zero] at hr
      rw [hr, readUInt32LE_recordBytes_zero k d hklt]
    · have hs := hsegF.slice 8 k.length (by rw [length_recordBytes]; omega)
      rw [hs, recordBytes_drop8_take]
  have hwf_entries : ∀ e ∈ w.hashtables.getD b [],
      e.hash < 4294967296 ∧ e.position < 4294967296 := by
    intro e he
    obtain ⟨k, -, -, -, hh, hp, -, -⟩ := hrec e he
    exact ⟨hh, hp⟩
  have htable : getBufferForHashtable (w.hashtables.getD b []) =
      serializeSlots (buildSlots (w.hashtables.getD b [])) :=
    getBufferForHashtable_eq_serializeSlots _ hwf_entries
  have hsegTable : SegAt w.close.file (w.filePosition + pre)
      (serializeSlots (buildSlots (w.hashtables.getD b []))) := by
    have h1 := (hsegT.append_left w.records).append_left
      (getBufferForHeader w.close.header)
    rw [← hfile, htable] at h1
    have harith : (getBufferForHeader w.close.header).length +
        (w.records.length + pre) = w.filePosition + pre := by
      rw [hHlen, hfp]; omega
    rwa [harith] at h1
  have hpos_lt : w.filePosition + pre < 4294967296 := by
    have := hsegTable.pos_le
    omega
  have hslots_lt : (w.hashtables.getD b []).length * 2 < 4294967296 := by
    have hc := (hbucket b).1
    have hRle : w.records.length ≤ w.close.file.length := by
      rw [hfile]
      simp only [List.length_append]
      omega
    omega
  have hopen : (CDBReadable.openReader w.close.file).header.getD b ⟨0, 0⟩ =
      ⟨readUInt32LE w.close.file (8 * b), readUInt32LE w.close.file (8 * b + 4)⟩ := by
    have hmap : (CDBReadable.openReader w.close.file).header =
        (List.range 256).map (fun i => (⟨readUInt32LE w.close.file (8 * i),
          readUInt32LE w.close.file (8 * i + 4)⟩ : ReadHeader)) := rfl
    rw [hmap, getD_range_map 256 b _ _ hb]
  have hchunkF : SegAt w.close.file (8 * b)
      (uInt32Bytes (w.close.header.getD b ⟨0, 0⟩).position ++
        uInt32Bytes (w.close.header.getD b ⟨0, 0⟩).slots) := by
    have := (segAt_getBufferForHeader w.close.header b
      (by rw [hhdrlen]; exact hb)).append_right
      (w.records ++ (closeBuckets w.filePosition w.hashtables).2)
    rwa [← hfile] at this
  have hentry' : w.close.header.getD b ⟨0, 0⟩ =
      ⟨w.filePosition + pre, (w.hashtables.getD b []).length * 2⟩ := by
    rw [hhdr_eq]; exact hentry
  have hread_pos : readUInt32LE w.close.file (8 * b) = w.filePosition + pre := by
    have hr := hchunkF.read32 0 (by simp)
    rw [Nat.add_zero] at hr
    rw [hr, hentry']
    show readUInt32LE (uInt32Bytes (w.filePosition + pre) ++
      uInt32Bytes ((w.hashtables.getD b []).length * 2)) 0 = _
    exact readUInt32LE_uInt32Bytes_append _ _ hpos_lt
  have hread_slots : readUInt32LE w.close.file (8 * b + 4) =
      (w.hashtables.getD b []).length * 2 := by
    have h4 := hchunkF.read32 4 (by simp)
    rw [h4, hentry']
    show readUInt32LE (uInt32Bytes (w.filePosition + pre) ++
      uInt32Bytes ((w.hashtables.getD b []).length * 2)) 4 = _
    have h4eq : (4 : Nat) = (uInt32Bytes (w.filePosition + pre)).length + 0 := by simp
    rw [h4eq, readUInt32LE_append_right]
    exact readUInt32LE_uInt32Bytes _ hslots_lt
  exact ⟨w.filePosition + pre, by rw [hopen, hread_pos, hread_slots], hsegTable, hrec⟩

/-! ## Unfolding helpers for `get` -/
/-- Unfolding `get` on an empty bucket: not-found, zero reads, bookmark untouched. -/
theorem get_slotCount_zero (self : CDBReadable) (file key : List Nat)
    (offset fuel : Nat)
    (h : (self.header.getD (cdbHash key % 256) ⟨0, 0⟩).slotCount = 0) :
    self.get file key offset fuel = ⟨.notFound, 0, self.bookmark⟩ := by
  simp only [CDBReadable.get]
  rw [if_pos h]

/-- Unfolding `get` on a non-empty bucket whose probe loop reports not-found. -/
theorem get_out_notFound (self : CDBReadable) (file key : List Nat)
    (offset fuel : Nat)
    (hne : (self.header.getD (cdbHash key % 256) ⟨0, 0⟩).slotCount ≠ 0)
    (hpr : (getLoop file (cdbHash key) key
        (self.header.getD (cdbHash key % 256) ⟨0, 0⟩).position
        (self.header.getD (cdbHash key % 256) ⟨0, 0⟩).slotCount
        (cdbHash key / 256 % (self.header.getD (cdbHash key % 256) ⟨0, 0⟩).slotCount)
        offset 0 fuel).out = .notFound) :
    (self.get file key offset fuel).out = .notFound := by
  simp only [CDBReadable.get]
  rw [if_neg hne, hpr]

/-! ## Claim theorems -/
/-! ### C7 — the default hash functions -/
/-- C7: the default hash is the adapted DJB scheme — accumulator 5381, then
`acc = ((acc * 33) mod 2^32) XOR byte` per input byte (both for `cdbHash` of
`cdb-util.js` and `originalHash` of `cdb-util.ts`, which are pure Lean
functions and hence deterministic); and the 64-bit profile's `defaultHash`
equals that 32-bit result plus the first 4 bytes of the zero-padded-if-short
key, read as a little-endian 32-bit word, shifted into bits 32..63. -/
theorem C7_default_hash_djb (key : List Nat) (hkey : ∀ b ∈ key, b < 256) :
    originalHash key = specDJBHash key ∧
    cdbHash key = specDJBHash key ∧
    defaultHash key = specDJBHash key +
      readUInt32LE (key ++ List.replicate (4 - key.length) 0) 0 * 4294967296 ∧
    defaultHash key % 4294967296 = specDJBHash key ∧
    defaultHash key / 4294967296 =
      readUInt32LE (key ++ List.replicate (4 - key.length) 0) 0 := by
  have hstep : ∀ h b : Nat, b < 4294967296 →
      originalHashStep h b = h * 33 % 4294967296 ^^^ b := by
    intro h b hb
    rw [originalHashStep, Nat.mod_eq_of_lt hb, Nat.mod_add_mod]
    have : h * 32 + h = h * 33 := by ring
    rw [this]
  have hfold : ∀ (l : List Nat) (init : Nat), (∀ b ∈ l, b < 256) →
      l.foldl originalHashStep init =
        l.foldl (fun acc b => acc * 33 % 4294967296 ^^^ b) init := by
    intro l
    induction l with
    | nil => intro init _; rfl
    | cons b tl ih =>
      intro init hl
      have hb : b < 4294967296 := by have := hl b (by simp); omega
      rw [List.foldl_cons, List.foldl_cons, hstep init b hb,
        ih _ (fun x hx => hl x (by simp [hx]))]
  have h1 : originalHash key = specDJBHash key := hfold key 5381 hkey
  have h2 : cdbHash key = specDJBHash key := hfold key 5381 hkey
  have hpad : (if key.length < 4 then key ++ List.replicate (4 - key.length) 0 else key) =
      key ++ List.replicate (4 - key.length) 0 := by
    by_cases hl : key.length < 4
    · rw [if_pos hl]
    · rw [if_neg hl]
      have : 4 - key.length = 0 := by omega
      rw [this, List.replicate_zero, List.append_nil]
  have h3 : defaultHash key = specDJBHash key +
      readUInt32LE (key ++ List.replicate (4 - key.length) 0) 0 * 4294967296 := by
    rw [defaultHash, hpad, h1]
  have horig : specDJBHash key < 4294967296 := by
    rw [← h1]; exact foldl_originalHashStep_lt key 5381 (by norm_num)
  refine ⟨h1, h2, h3, ?_, ?_⟩
  · rw [h3, Nat.add_mul_mod_self_right, Nat.mod_eq_of_lt horig]
  · rw [h3, Nat.add_mul_div_right _ _ (by norm_num : (0:Nat) < 4294967296),
      Nat.div_eq_of_lt horig, Nat.zero_add]

/-- Witness for C7 at the concrete key "abc". -/
theorem C7_default_hash_djb_witness :
    (∀ b ∈ [97, 98, 99], b < 256) ∧
    originalHash [97, 98, 99] = specDJBHash [97, 98, 99] ∧
    cdbHash [97, 98, 99] = specDJBHash [97, 98, 99] ∧
    defaultHash [97, 98, 99] = specDJBHash [97, 98, 99] +
      readUInt32LE ([97, 98, 99] ++ List.replicate (4 - [97, 98, 99].length) 0) 0 * 4294967296 ∧
    defaultHash [97, 98, 99] % 4294967296 = specDJBHash [97, 98, 99] ∧
    defaultHash [97, 98, 99] / 4294967296 =
      readUInt32LE ([97, 98, 99] ++ List.replicate (4 - [97, 98, 99].length) 0) 0 :=
  ⟨by decide, C7_default_hash_djb [97, 98, 99] (by decide)⟩

/-! ### C3 — empty bucket means immediate not-found -/
/-- C3: whenever the bucket selected by the key's hash has `slotCount = 0`,
`get` reports not-found immediately, issues zero reads of the underlying file
(only the in-memory header was consulted), and leaves the bookmark unchanged.
(The source computes `(hash >>> 8) % slotCount` — `NaN` for `slotCount = 0` —
before the check, but never uses it on this path.) -/
theorem C3_empty_bucket_not_found (self : CDBReadable) (file key : List Nat)
    (offset fuel : Nat)
    (h : (self.header.getD (cdbHash key % 256) ⟨0, 0⟩).slotCount = 0) :
    self.get file key offset fuel = ⟨.notFound, 0, self.bookmark⟩ := by
  simp only [CDBReadable.get]
  rw [if_pos h]

/-- Witness for C3: a reader whose 256 header entries are all empty. -/
theorem C3_empty_bucket_not_found_witness :
    ((CDBReadable.mk (List.replicate 256 ⟨0, 0⟩) none).header.getD
        (cdbHash [97] % 256) ⟨0, 0⟩).slotCount = 0 ∧
    (CDBReadable.mk (List.replicate 256 ⟨0, 0⟩) none).get [] [97] 0 5 =
      ⟨.notFound, 0, none⟩ :=
  ⟨by decide, C3_empty_bucket_not_found _ [] [97] 0 5 (by decide)⟩

/-- C8 counterexample: contrary to the claim that after an error every
subsequent `put` "performs no I/O and no bucket bookkeeping", a `put` on the
errored session still appends a `(hash, position)` entry to its bucket and
advances `filePosition` — `put` consults no error state at all. -/
theorem C8_counterexample_put_still_bookkeeps :
    (c8ErroredWriter.put [98] [50]).hashtables ≠ c8ErroredWriter.hashtables ∧
    (c8ErroredWriter.put [98] [50]).filePosition ≠ c8ErroredWriter.filePosition := by
  constructor
  · intro h
    have := congrArg (fun l => (l.getD (cdbHash [98] % 256) []).length) h
    revert this
    decide
  · decide

/-- C8 (amended): `put` has no errored-state guard.  Whatever the session
history — including an `Open`/`Closing`-phase I/O error, of which the writer
state keeps no record — `put` unconditionally performs its bookkeeping: it
appends the record bytes, pushes `(cdbHash key, filePosition)` onto bucket
`hash & 255` (leaving every other bucket unchanged), and advances
`filePosition` by the record length; error delivery is left entirely to the
underlying stream's write callback. -/
theorem C8_amended_put_unconditional (w : CDBWritable) (key data : List Nat)
    (hlen : w.hashtables.length = 256) :
    (w.put key data).filePosition = w.filePosition + 8 + key.length + data.length ∧
    (w.put key data).records = w.records ++ recordBytes key data ∧
    (w.put key data).hashtables.getD (cdbHash key % 256) [] =
      w.hashtables.getD (cdbHash key % 256) [] ++ [⟨cdbHash key, w.filePosition⟩] ∧
    ∀ b, b ≠ cdbHash key % 256 →
      (w.put key data).hashtables.getD b [] = w.hashtables.getD b [] := by
  refine ⟨?_, rfl, ?_, ?_⟩
  · show w.filePosition + (8 + key.length + data.length) = _
    omega
  · show (w.hashtables.set (cdbHash key % 256)
        (w.hashtables.getD (cdbHash key % 256) [] ++
          [⟨cdbHash key, w.filePosition⟩])).getD (cdbHash key % 256) [] = _
    exact getD_set_self _ _ _ _ (by rw [hlen]; exact Nat.mod_lt _ (by norm_num))
  · intro b hb
    show (w.hashtables.set (cdbHash key % 256)
        (w.hashtables.getD (cdbHash key % 256) [] ++
          [⟨cdbHash key, w.filePosition⟩])).getD b [] = _
    exact getD_set_ne _ _ _ _ _ (fun h => hb h.symm)

/-- Witness for C8 (amended) at the errored session above. -/
theorem C8_amended_put_unconditional_witness :
    c8ErroredWriter.hashtables.length = 256 ∧
    ((c8ErroredWriter.put [98] [50]).filePosition =
        c8ErroredWriter.filePosition + 8 + 1 + 1 ∧
      (c8ErroredWriter.put [98] [50]).records =
        c8ErroredWriter.records ++ recordBytes [98] [50] ∧
      (c8ErroredWriter.put [98] [50]).hashtables.getD (cdbHash [98] % 256) [] =
        c8ErroredWriter.hashtables.getD (cdbHash [98] % 256) [] ++
          [⟨cdbHash [98], c8ErroredWriter.filePosition⟩] ∧
      ∀ b, b ≠ cdbHash [98] % 256 →
        (c8ErroredWriter.put [98] [50]).hashtables.getD b [] =
          c8ErroredWriter.hashtables.getD b []) :=
  ⟨by decide, C8_amended_put_unconditional c8ErroredWriter [98] [50] (by decide)⟩

/-- C1: evaluation of the code at the failing input `put("a","1"); close()`;
reopen; `get("a",0)`; `getNext()`; `getNext()`.  The first two calls behave as
claimed (value "1", then not-found), but the second `getNext()` — which the
claim requires to be not-found — returns "1" again, because the stale
bookmark's probe wraps around the slot table. -/
theorem C1_second_getNext_returns_value_again :
    (c1Reader.get c1File [97] 0 4).out = .found [49] ∧
    (c1Reader1.getNext c1File 4).out = .notFound ∧
    (c1Reader2.getNext c1File 4).out = .found [49] := by
  refine ⟨by decide, by decide, by decide⟩

/-- C4: evaluation of the code at the failing input: the two keys collide
(equal hash, equal length, different bytes), and `get("op5063", 1)` returns
the value "2" of the *single* "op5063" record — the non-matching slot of
"op7r4q" consumed the occurrence counter, contradicting the claim that only
true matches do. -/
theorem C4_mismatch_consumes_occurrence :
    cdbHash c4KeyX = cdbHash c4KeyA ∧ c4KeyX ≠ c4KeyA ∧
    (c4Reader.get c4File c4KeyA 1 8).out = .found [50] := by
  refine ⟨by decide, by decide, by decide⟩

/-- C5 counterexample: on a freshly opened reader (no prior `get`, so no
bookmark), `getNext()` does *not* return not-found to its callback — the
source's `getNext` body is `if (this.bookmark) this.bookmark(callback)`, so
without a bookmark the callback is never invoked at all. -/
theorem C5_counterexample_getNext_never_calls_back :
    (c5Reader.getNext c5File 8).out = .notCalled ∧
    CallOutcome.notCalled ≠ CallOutcome.notFound := by
  refine ⟨by decide, by decide⟩

/-- C5 (amended): `getNext()` with no continuation state is a no-op that never
invokes its callback (rather than returning not-found); after a prior
successful `get`, it resumes probing from the saved slot with the next true
match treated as occurrence 0 — demonstrated on the spec's own duplicate-key
scenario, where `get("dup", 0)` returns "1" and the resumed `getNext()`
returns "2", the second-written value. -/
theorem C5_amended_getNext (r : CDBReadable) (file : List Nat) (fuel : Nat)
    (h : r.bookmark = none) :
    r.getNext file fuel = ⟨.notCalled, 0, none⟩ ∧
    (c5Reader.get c5File [100, 117, 112] 0 8).out = .found [49] ∧
    (c5Reader1.getNext c5File 8).out = .found [50] := by
  refine ⟨?_, by decide, by decide⟩
  rw [CDBReadable.getNext, h]

/-- Witness for C5 (amended) at the freshly opened reader. -/
theorem C5_amended_getNext_witness :
    c5Reader.bookmark = none ∧
    (c5Reader.getNext c5File 8 = ⟨.notCalled, 0, none⟩ ∧
      (c5Reader.get c5File [100, 117, 112] 0 8).out = .found [49] ∧
      (c5Reader1.getNext c5File 8).out = .found [50]) :=
  ⟨by decide, C5_amended_getNext c5Reader c5File 8 (by decide)⟩

/-! ### C6 — lookups of absent keys -/
/-- C6 (amended): for every finite sequence of puts and every key that was
never written **whose hash is nonzero**, `get` terminates — any fuel covering
the bucket's `2n`-slot table suffices, because the table retains a
zero-sentinel slot at load factor 0.5 — and returns not-found without raising
an error, whether or not other keys hash into the same bucket.  (The
`writeUInt32LE` range check makes the writer itself fail beyond 2^32 bytes,
hence the file-size bound.) -/
theorem C6_amended_absent_key_not_found
    (pairs : List (List Nat × List Nat)) (key : List Nat) (occurrence fuel : Nat)
    (hkey : key ∉ pairs.map Prod.fst)
    (hhash : cdbHash key ≠ 0)
    (hsz : (putList CDBWritable.openWriter pairs).close.file.length < 4294967296)
    (hfuel : ((CDBReadable.openReader
        (putList CDBWritable.openWriter pairs).close.file).header.getD
        (cdbHash key % 256) ⟨0, 0⟩).slotCount ≤ fuel) :
    ((CDBReadable.openReader (putList CDBWritable.openWriter pairs).close.file).get
      (putList CDBWritable.openWriter pairs).close.file key occurrence fuel).out =
      CallOutcome.notFound := by
  set w := putList CDBWritable.openWriter pairs with hw
  set file := w.close.file with hfiledef
  set r := CDBReadable.openReader file with hr
  have hok : WriterOk w (pairs.map Prod.fst) := by
    have := writerOk_putList pairs CDBWritable.openWriter [] writerOk_open
    simpa [hw] using this
  have hb : cdbHash key % 256 < 256 := Nat.mod_lt _ (by norm_num)
  obtain ⟨pos, hhdr, hsegTable, hrec⟩ :=
    close_facts w (pairs.map Prod.fst) hok hsz (cdbHash key % 256) hb
  by_cases hn : (w.hashtables.getD (cdbHash key % 256) []).length = 0
  · have hzero : (r.header.getD (cdbHash key % 256) ⟨0, 0⟩).slotCount = 0 := by
      rw [hhdr]
      show (w.hashtables.getD (cdbHash key % 256) []).length * 2 = 0
      omega
    rw [get_slotCount_zero r file key occurrence fuel hzero]
  · have hsc_pos : 0 < (w.hashtables.getD (cdbHash key % 256) []).length * 2 := by omega
    have hlen_slots : (buildSlots (w.hashtables.getD (cdbHash key % 256) [])).length =
        (w.hashtables.getD (cdbHash key % 256) []).length * 2 :=
      buildSlots_length _
    have hwf_slots : ∀ s ∈ buildSlots (w.hashtables.getD (cdbHash key % 256) []),
        s.1 < 4294967296 ∧ s.2 < 4294967296 := by
      intro s hs
      rcases buildSlots_mem _ s hs with h0 | ⟨e, he, hse⟩
      · rw [h0]; exact ⟨by norm_num, by norm_num⟩
      · obtain ⟨k, -, -, -, hhlt, hplt, -, -⟩ := hrec e he
        rw [hse]; exact ⟨hhlt, hplt⟩
    have hseg : ∀ j, j < (w.hashtables.getD (cdbHash key % 256) []).length * 2 →
        readUInt32LE file (pos + j * 8) =
          ((buildSlots (w.hashtables.getD (cdbHash key % 256) [])).getD j (0, 0)).1 ∧
        readUInt32LE file (pos + j * 8 + 4) =
          ((buildSlots (w.hashtables.getD (cdbHash key % 256) [])).getD j (0, 0)).2 := by
      intro j hj
      have hj' : j < (buildSlots (w.hashtables.getD (cdbHash key % 256) [])).length := by
        omega
      have hwfj := hwf_slots
        ((buildSlots (w.hashtables.getD (cdbHash key % 256) [])).getD j (0, 0))
        (by
          rw [List.getD_eq_getElem _ _ hj']
          exact List.getElem_mem hj')
      constructor
      · have h1 := hsegTable.read32 (j * 8) (by rw [length_serializeSlots]; omega)
        rw [h1]
        exact read32_serializeSlots_hash _ j hj' hwfj.1
      · have h2 := hsegTable.read32 (j * 8 + 4) (by rw [length_serializeSlots]; omega)
        rw [← Nat.add_assoc] at h2
        rw [h2]
        exact read32_serializeSlots_pos _ j hj' hwfj.2
    have hslot : ∀ j, j < (w.hashtables.getD (cdbHash key % 256) []).length * 2 →
        ((buildSlots (w.hashtables.getD (cdbHash key % 256) [])).getD j (0, 0)).1 = 0 ∨
        ∃ k : List Nat, k ≠ key ∧
          ((buildSlots (w.hashtables.getD (cdbHash key % 256) [])).getD j (0, 0)).1 =
            cdbHash k ∧
          readUInt32LE file
            (((buildSlots (w.hashtables.getD (cdbHash key % 256) [])).getD j (0, 0)).2) =
            k.length ∧
          (file.drop
            (((buildSlots (w.hashtables.getD (cdbHash key % 256) [])).getD j (0, 0)).2 + 8)).take
            k.length = k := by
      intro j hj
      have hj' : j < (buildSlots (w.hashtables.getD (cdbHash key % 256) [])).length := by
        omega
      have hmem : (buildSlots (w.hashtables.getD (cdbHash key % 256) [])).getD j (0, 0) ∈
          buildSlots (w.hashtables.getD (cdbHash key % 256) []) := by
        rw [List.getD_eq_getElem _ _ hj']
        exact List.getElem_mem hj'
      rcases buildSlots_mem _ _ hmem with h0 | ⟨e, he, hse⟩
      · left; rw [h0]
      · obtain ⟨k, d, hk, hh, -, -, hkl, hks⟩ := hrec e he
        right
        refine ⟨k, fun hkk => hkey (hkk ▸ hk), ?_, ?_, ?_⟩
        · rw [hse]; exact hh
        · rw [hse]; exact hkl
        · rw [hse]; exact hks
    obtain ⟨j0, hj0lt, hj0zero⟩ := buildSlots_exists_zero
      (w.hashtables.getD (cdbHash key % 256) [])
      (fun hnil => hn (by rw [hnil]; rfl))
    have hj0sc : j0 < (w.hashtables.getD (cdbHash key % 256) []).length * 2 := by omega
    obtain ⟨dist, hdist, hdisteq⟩ := exists_probe_dist
      (cdbHash key / 256 % ((w.hashtables.getD (cdbHash key % 256) []).length * 2)) j0
      ((w.hashtables.getD (cdbHash key % 256) []).length * 2) hj0sc
    have hfuel' : (w.hashtables.getD (cdbHash key % 256) []).length * 2 ≤ fuel := by
      rw [hhdr] at hfuel
      exact hfuel
    apply get_out_notFound
    · rw [hhdr]
      show (w.hashtables.getD (cdbHash key % 256) []).length * 2 ≠ 0
      omega
    · rw [hhdr]
      exact getLoop_notFound_of_zero file (cdbHash key) key pos
        ((w.hashtables.getD (cdbHash key % 256) []).length * 2) hhash hsc_pos
        (buildSlots (w.hashtables.getD (cdbHash key % 256) [])) hseg hslot dist
        (cdbHash key / 256 % ((w.hashtables.getD (cdbHash key % 256) []).length * 2))
        occurrence 0 fuel (by rw [hdisteq]; exact hj0zero) (by omega)

/-- The concrete one-pair database of the C6 witness fits far below the
32-bit size bound (2048 header + 10 record + 16 table bytes). -/
theorem c6_witness_size :
    (putList CDBWritable.openWriter [([98], [50])]).close.file.length < 4294967296 := by
  rw [close_file_length, length_getBufferForHeader]
  have e1 : (putList CDBWritable.openWriter [([98], [50])]).close.header.length = 256 := by
    show (closeBuckets _ _).1.length = 256
    rw [closeBuckets_length]
    decide
  have e2 : (putList CDBWritable.openWriter [([98], [50])]).records.length = 10 := by
    decide
  have e3 : (closeBuckets (putList CDBWritable.openWriter [([98], [50])]).filePosition
      (putList CDBWritable.openWriter [([98], [50])]).hashtables).2.length = 16 := by
    decide
  rw [e1, e2, e3]
  norm_num

/-- Witness for C6 (amended): the single pair `("b", "2")` and the absent
two-byte key `[98, 96]`, which lands in the same (non-empty) bucket 199. -/
theorem C6_amended_absent_key_not_found_witness :
    ([98, 96] ∉ ([([98], [50])] : List (List Nat × List Nat)).map Prod.fst ∧
      cdbHash [98, 96] ≠ 0 ∧
      (putList CDBWritable.openWriter [([98], [50])]).close.file.length < 4294967296 ∧
      ((CDBReadable.openReader
          (putList CDBWritable.openWriter [([98], [50])]).close.file).header.getD
          (cdbHash [98, 96] % 256) ⟨0, 0⟩).slotCount ≤ 2) ∧
    ((CDBReadable.openReader
        (putList CDBWritable.openWriter [([98], [50])]).close.file).get
      (putList CDBWritable.openWriter [([98], [50])]).close.file [98, 96] 0 2).out =
      CallOutcome.notFound :=
  ⟨⟨by decide, by decide, c6_witness_size, by decide⟩,
    C6_amended_absent_key_not_found [([98], [50])] [98, 96] 0 2
      (by decide) (by decide) c6_witness_size (by decide)⟩

/-- On `c6File`, a probe with query hash 0 in bucket 0 never terminates: the
zero sentinel slot *matches* the query hash (`recordHash == hash` fires before
the `recordHash === 0` check), its position field 0 sends the reader to file
offset 0 where the header yields `keyLength = 2059 ≠ 8`, so the probe
advances; the occupied slot's hash `5861120` matches neither `0 === hash` nor
the sentinel check; the loop cycles through the two slots forever. -/
theorem c6_getLoop_diverges :
    ∀ fuel slot offset reads,
      (getLoop c6File 0 c6KeyZero 2059 2 slot offset reads fuel).out =
        CallOutcome.fuelOut := by
  have f1 : readUInt32LE c6File (2059 + 0 * 8) = 0 := by decide
  have f2 : readUInt32LE c6File (2059 + 0 * 8 + 4) = 0 := by decide
  have f3 : readUInt32LE c6File 0 = 2059 := by decide
  have f4 : readUInt32LE c6File (2059 + 1 * 8) = 5861120 := by decide
  intro fuel
  induction fuel with
  | zero => intro slot offset reads; rfl
  | succ fuel ih =>
    intro slot offset reads
    rcases Nat.mod_two_eq_zero_or_one slot with hs | hs
    · rw [getLoop_succ, hs, f1, if_pos rfl, f2, f3,
        if_pos (by decide : (2059 : Nat) ≠ c6KeyZero.length)]
      exact ih (slot + 1) offset (reads + 2)
    · rw [getLoop_succ, hs, f4,
        if_neg (by norm_num : ¬ (5861120 : Nat) = 0),
        if_neg (by norm_num : ¬ (5861120 : Nat) = 0)]
      exact ih (slot + 1) offset (reads + 1)

/-- Unfolding `get` on a non-empty bucket whose probe loop runs out of fuel. -/
theorem get_out_fuelOut (self : CDBReadable) (file key : List Nat)
    (offset fuel : Nat)
    (hne : (self.header.getD (cdbHash key % 256) ⟨0, 0⟩).slotCount ≠ 0)
    (hpr : (getLoop file (cdbHash key) key
        (self.header.getD (cdbHash key % 256) ⟨0, 0⟩).position
        (self.header.getD (cdbHash key % 256) ⟨0, 0⟩).slotCount
        (cdbHash key / 256 % (self.header.getD (cdbHash key % 256) ⟨0, 0⟩).slotCount)
        offset 0 fuel).out = .fuelOut) :
    (self.get file key offset fuel).out = .fuelOut := by
  simp only [CDBReadable.get]
  rw [if_neg hne, hpr]

/-- C6 counterexample: `get` on the never-written key `)muA^2$}` — whose
`cdbHash` is 0 — over the database `{"hm": "v"}` does **not** terminate with
not-found: even 1000 probe iterations (the bucket has 2 slots) leave the loop
still running, refuting the claimed termination for every absent key. -/
theorem C6_counterexample_zero_hash_diverges :
    cdbHash c6KeyZero = 0 ∧
    c6KeyZero ∉ ([([104, 109], [118])] : List (List Nat × List Nat)).map Prod.fst ∧
    (c6Reader.get c6File c6KeyZero 0 1000).out = CallOutcome.fuelOut := by
  refine ⟨by decide, by decide, ?_⟩
  apply get_out_fuelOut
  · decide
  · exact c6_getLoop_diverges 1000 0 0 0

/-- C2 counterexample: for the input entries `(hash 0, position 2048)` and
`(hash 0, position 2058)` — as produced by two keys hashing to 0 — the source
builder (occupancy = hash field ≠ 0) sees slot 0 as still free for the second
entry and overwrites it, while the claimed builder (occupancy = position
field ≠ 0) probes on to slot 1.  The produced buffers differ. -/
theorem C2_counterexample_occupancy_field :
    getBufferForHashtable [⟨0, 2048⟩, ⟨0, 2058⟩] ≠
      getBufferForHashtableClaimC2 [⟨0, 2048⟩, ⟨0, 2058⟩] := by
  decide

/-- C2 (amended): for every bucket's input list of (hash, recordPosition)
entries, the builder processes entries in input order over an initially
zero-filled buffer of exactly 2n slots (16n bytes): each entry's home slot is
`(hash >> 8) mod (2n)`, a slot counts as occupied exactly when its **hash**
field (the first 32-bit word of the slot) is nonzero, probing advances by
`(slot + 1) mod (2n)` past occupied slots, and the (hash, position) pair is
written into the first free slot found — stated as: the byte buffer the
builder produces is precisely the serialization of the slot-level insertion
algorithm `buildSlots` with those rules. -/
theorem C2_amended_builder_refines_slots (hashtable : List Hashtable)
    (hwf : ∀ e ∈ hashtable, e.hash < 4294967296 ∧ e.position < 4294967296) :
    getBufferForHashtable hashtable = serializeSlots (buildSlots hashtable) ∧
    (buildSlots hashtable).length = 2 * hashtable.length ∧
    (getBufferForHashtable hashtable).length = 8 * (2 * hashtable.length) :=
  ⟨getBufferForHashtable_eq_serializeSlots hashtable hwf,
    by rw [buildSlots_length]; omega,
    by
      rw [getBufferForHashtable_eq_serializeSlots hashtable hwf,
        length_serializeSlots, buildSlots_length]
      omega⟩

/-- Witness for C2 (amended): two colliding entries probed into a 4-slot
table. -/
theorem C2_amended_builder_refines_slots_witness :
    (∀ e ∈ [(⟨300, 2048⟩ : Hashtable), ⟨300, 2058⟩],
      e.hash < 4294967296 ∧ e.position < 4294967296) ∧
    (getBufferForHashtable [⟨300, 2048⟩, ⟨300, 2058⟩] =
        serializeSlots (buildSlots [⟨300, 2048⟩, ⟨300, 2058⟩]) ∧
      (buildSlots [⟨300, 2048⟩, ⟨300, 2058⟩]).length = 2 * 2 ∧
      (getBufferForHashtable [⟨300, 2048⟩, ⟨300, 2058⟩]).length = 8 * (2 * 2)) :=
  ⟨by decide, by
    simpa using C2_amended_builder_refines_slots [⟨300, 2048⟩, ⟨300, 2058⟩] (by decide)⟩

theorem mapLookup_nil (k : Nat) : mapLookup [] k = none := rfl

theorem mapSet_length_le (m : List (Nat × List Nat)) (k : Nat) (v : List Nat) :
    (mapSet m k v).length ≤ m.length + 1 := by
  rw [mapSet]
  by_cases h : (m.find? (fun e => e.1 == k)).isSome
  · rw [if_pos h, List.length_map]; omega
  · rw [if_neg h, List.length_append]; simp

theorem mapDelete_length_le (m : List (Nat × List Nat)) (k : Nat) :
    (mapDelete m k).length ≤ m.length :=
  List.length_filter_le _ _

theorem mapLookup_none_iff (m : List (Nat × List Nat)) (k : Nat) :
    mapLookup m k = none ↔ m.find? (fun e => e.1 == k) = none := by
  rw [mapLookup]
  cases m.find? (fun e => e.1 == k) <;> simp

theorem mapSet_of_not_mem (m : List (Nat × List Nat)) (k : Nat) (v : List Nat)
    (h : mapLookup m k = none) : mapSet m k v = m ++ [(k, v)] := by
  rw [mapSet, if_neg]
  rw [mapLookup_none_iff] at h
  simp [h]

theorem mapLookup_append_none (m : List (Nat × List Nat)) (i k : Nat)
    (v : List Nat) (hm : mapLookup m k = none) (hk : k ≠ i) :
    mapLookup (m ++ [(i, v)]) k = none := by
  rw [mapLookup_none_iff] at hm ⊢
  rw [List.find?_append, hm, Option.none_or, List.find?_cons]
  have : ((i, v).1 == k) = false := by simp [Ne.symm hk]
  rw [this]
  rfl

theorem mapLookup_map_pairs (f : Nat → List Nat) (ixs : List Nat) (k : Nat)
    (h : k ∈ ixs) : mapLookup (ixs.map (fun i => (i, f i))) k = some (f k) := by
  induction ixs with
  | nil => simp at h
  | cons i rest ih =>
    rw [List.map_cons, mapLookup, List.find?_cons]
    by_cases hik : i = k
    · subst hik
      simp
    · have : (((i, f i)).1 == k) = false := by simp [hik]
      rw [this]
      have hk : k ∈ rest := by
        rcases List.mem_cons.mp h with h' | h'
        · exact absurd h'.symm hik
        · exact h'
      exact ih hk

/-- A `readBlock` on a new-generation hit returns the cached block and changes
nothing. -/
theorem readBlock_hit (reader : Nat → Nat → List Nat)
    (st : RawDataReaderCacheWrapper) (i : Nat) (v : List Nat)
    (h : mapLookup st.newCache i = some v) :
    st.readBlock reader i = (v, st, 0) := by
  rw [RawDataReaderCacheWrapper.readBlock, h]

/-- Phase one over indices that are all new-generation hits: the entries
record the cached blocks and the state is unchanged. -/
theorem startBlocks_all_hit (v : Nat → List Nat) (ixs : List Nat) :
    ∀ st : RawDataReaderCacheWrapper,
    (∀ i ∈ ixs, mapLookup st.newCache i = some (v i)) →
    startBlocks st ixs = (ixs.map (fun i => (i, some (v i))), st) := by
  induction ixs with
  | nil => intro st _; rfl
  | cons i rest ih =>
    intro st hhit
    simp only [startBlocks, hhit i (by simp),
      ih st (fun j hj => hhit j (by simp [hj])), List.map_cons]

/-- Phase one over indices that miss both generations: the entries record
`none` and the state is unchanged. -/
theorem startBlocks_all_miss (ixs : List Nat) :
    ∀ st : RawDataReaderCacheWrapper,
    (∀ i ∈ ixs, mapLookup st.newCache i = none) →
    (∀ i ∈ ixs, mapLookup st.oldCache i = none) →
    startBlocks st ixs =
      (ixs.map (fun i => (i, (none : Option (List Nat)))), st) := by
  induction ixs with
  | nil => intro st _ _; rfl
  | cons i rest ih =>
    intro st hn ho
    simp only [startBlocks, hn i (by simp), ho i (by simp),
      ih st (fun j hj => hn j (by simp [hj])) (fun j hj => ho j (by simp [hj])),
      List.map_cons]

theorem missedIndices_all_none (ixs : List Nat) :
    missedIndices (ixs.map (fun i => (i, (none : Option (List Nat))))) = ixs := by
  induction ixs with
  | nil => rfl
  | cons i rest ih =>
    simp only [missedIndices] at ih ⊢
    simp [ih]

theorem missedIndices_all_some (ixs : List Nat) (v : Nat → List Nat) :
    missedIndices (ixs.map (fun i => (i, some (v i)))) = [] := by
  induction ixs with
  | nil => rfl
  | cons i rest ih =>
    simp only [missedIndices] at ih ⊢
    simp [ih]

theorem blockValue_map_none (reader : Nat → Nat → List Nat) (bs : Nat)
    (ixs : List Nat) :
    (ixs.map (fun i => (i, (none : Option (List Nat))))).map
        (blockValue reader bs) =
      ixs.map (fun i => reader (i * bs) bs) := by
  induction ixs with
  | nil => rfl
  | cons i rest ih =>
    simp only [List.map_cons, ih]
    rfl

theorem blockValue_map_some (reader : Nat → Nat → List Nat) (bs : Nat)
    (ixs : List Nat) (v : Nat → List Nat) :
    (ixs.map (fun i => (i, some (v i)))).map (blockValue reader bs) =
      ixs.map v := by
  induction ixs with
  | nil => rfl
  | cons i rest ih =>
    simp only [List.map_cons, ih]
    rfl

/-- Resuming pairwise-distinct missed indices, none already in the new
generation, with enough room that no rotation triggers: every fetched block
lands in the new generation, in order. -/
theorem resumeBlocks_no_rotation (reader : Nat → Nat → List Nat)
    (ixs : List Nat) :
    ∀ st : RawDataReaderCacheWrapper, ixs.Nodup →
    (∀ i ∈ ixs, mapLookup st.newCache i = none) →
    2 * (st.newCache.length + ixs.length) ≤ st.blocksLimit + 1 →
    resumeBlocks reader st ixs =
      { st with newCache :=
          st.newCache ++
            ixs.map (fun i => (i, reader (i * st.blockSize) st.blockSize)) } := by
  induction ixs with
  | nil => intro st _ _ _; simp [resumeBlocks]
  | cons i rest ih =>
    intro st hnodup hmiss hroom
    have hmi : mapLookup st.newCache i = none := hmiss i (by simp)
    have hnorot : ¬ 2 * st.newCache.length ≥ st.blocksLimit := by
      simp only [List.length_cons] at hroom
      omega
    have hins : insertBlock st i (reader (i * st.blockSize) st.blockSize) =
        { st with newCache :=
            st.newCache ++ [(i, reader (i * st.blockSize) st.blockSize)] } := by
      simp only [insertBlock, if_neg hnorot, mapSet_of_not_mem _ _ _ hmi]
    have hnd : rest.Nodup := (List.nodup_cons.mp hnodup).2
    have hni : i ∉ rest := (List.nodup_cons.mp hnodup).1
    have hroom' : 2 * ((st.newCache ++
        [(i, reader (i * st.blockSize) st.blockSize)]).length + rest.length) ≤
        st.blocksLimit + 1 := by
      simp only [List.length_append, List.length_cons, List.length_nil] at hroom ⊢
      omega
    have hrec := ih ({ st with newCache :=
        st.newCache ++ [(i, reader (i * st.blockSize) st.blockSize)] }) hnd
      (by
        intro j hj
        exact mapLookup_append_none _ _ _ _ (hmiss j (by simp [hj]))
          (fun hji => hni (hji ▸ hj)))
      hroom'
    simp only [resumeBlocks, hins, hrec]
    simp [List.append_assoc]

/-! ### C9 — double read of one range, and generational eviction -/
/-- C9 counterexample: with block size 1 and blocks limit 2, reading the byte
range `[0, 3)` twice in succession from a fresh wrapper issues 3 underlying
reads the first time and still 1 — not the claimed zero — the second time:
inserting the range's own 3 blocks rotated the generations twice during the
first read, dropping block 0, whose repeat lookup therefore misses (blocks 1
and 2 survive only as old-generation hits, which rotate again). -/
theorem C9_counterexample_reread_fetches_again :
    ((RawDataReaderCacheWrapper.mk0 1 2).read replicateReader 0 3).2.2 = 3 ∧
    (((RawDataReaderCacheWrapper.mk0 1 2).read replicateReader 0 3).2.1.read
        replicateReader 0 3).2.2 = 1 := by
  refine ⟨by decide, by decide⟩

/-- C9 (amended): the double-read guarantee holds from a fresh wrapper
*provided* the range covers at most `⌈blocksLimit / 2⌉` blocks (so that
inserting the range itself cannot rotate the generations): the first read
issues exactly one underlying read per covered block, and the immediately
repeated read issues none, returns the same bytes, and leaves the cache
unchanged.  Moreover — the claim's second half, unchanged — a block fetched
before a generation rotation and not re-touched is dropped after a second
rotation, and its next access issues a fresh underlying read: concretely,
after reading blocks 0, 1, 2 with blocks limit 2, block 0 is fetched anew. -/
theorem read_unfold (reader : Nat → Nat → List Nat)
    (self : RawDataReaderCacheWrapper) (start len : Nat) :
    self.read reader start len =
      ((((startBlocks self (List.range' (start / self.blockSize)
            ((start + len + self.blockSize - 1) / self.blockSize -
              start / self.blockSize))).1.map
          (blockValue reader self.blockSize)).flatten.drop
          (start - start / self.blockSize * self.blockSize)).take
          (start + len - start),
        resumeBlocks reader
          (startBlocks self (List.range' (start / self.blockSize)
            ((start + len + self.blockSize - 1) / self.blockSize -
              start / self.blockSize))).2
          (missedIndices (startBlocks self (List.range' (start / self.blockSize)
            ((start + len + self.blockSize - 1) / self.blockSize -
              start / self.blockSize))).1),
        (missedIndices (startBlocks self (List.range' (start / self.blockSize)
            ((start + len + self.blockSize - 1) / self.blockSize -
              start / self.blockSize))).1).length) :=
  rfl

theorem C9_amended_cached_reread (reader : Nat → Nat → List Nat)
    (bs L start len : Nat) (_hbs : 0 < bs)
    (hroom : 2 * ((start + len + bs - 1) / bs - start / bs) ≤ L + 1) :
    ((RawDataReaderCacheWrapper.mk0 bs L).read reader start len).2.2 =
      (start + len + bs - 1) / bs - start / bs ∧
    (((RawDataReaderCacheWrapper.mk0 bs L).read reader start len).2.1.read
        reader start len) =
      (((RawDataReaderCacheWrapper.mk0 bs L).read reader start len).1,
        ((RawDataReaderCacheWrapper.mk0 bs L).read reader start len).2.1, 0) ∧
    (c9Evict3.readBlock replicateReader 0).2.2 = 1 := by
  have hmk : (RawDataReaderCacheWrapper.mk0 bs L).blockSize = bs := rfl
  have hA1 := startBlocks_all_miss
    (List.range' (start / bs) ((start + len + bs - 1) / bs - start / bs))
    (RawDataReaderCacheWrapper.mk0 bs L) (fun i _ => rfl) (fun i _ => rfl)
  have hres := resumeBlocks_no_rotation reader
    (List.range' (start / bs) ((start + len + bs - 1) / bs - start / bs))
    (RawDataReaderCacheWrapper.mk0 bs L) (List.nodup_range' _ _)
    (fun i _ => rfl)
    (by simpa [RawDataReaderCacheWrapper.mk0, List.length_range'] using hroom)
  have hread1 : (RawDataReaderCacheWrapper.mk0 bs L).read reader start len =
      ((((List.range' (start / bs)
            ((start + len + bs - 1) / bs - start / bs)).map
          (fun i => reader (i * bs) bs)).flatten.drop
          (start - start / bs * bs)).take (start + len - start),
        (⟨bs, L, (List.range' (start / bs)
            ((start + len + bs - 1) / bs - start / bs)).map
          (fun i => (i, reader (i * bs) bs)), []⟩ : RawDataReaderCacheWrapper),
        (List.range' (start / bs)
          ((start + len + bs - 1) / bs - start / bs)).length) := by
    simp only [read_unfold, hmk, hA1, missedIndices_all_none,
      blockValue_map_none, hres]
    rfl
  refine ⟨?_, ?_, by decide⟩
  · rw [hread1]
    simp [List.length_range']
  · have hA2 := startBlocks_all_hit (fun i => reader (i * bs) bs)
      (List.range' (start / bs) ((start + len + bs - 1) / bs - start / bs))
      (⟨bs, L, (List.range' (start / bs)
          ((start + len + bs - 1) / bs - start / bs)).map
        (fun i => (i, reader (i * bs) bs)), []⟩ : RawDataReaderCacheWrapper)
      (fun j hj => mapLookup_map_pairs _ _ _ hj)
    simp only [hread1]
    simp only [read_unfold, hA2, missedIndices_all_some, blockValue_map_some,
      List.length_nil, resumeBlocks]

/-- Witness for C9 (amended): block size 1, blocks limit 4, reading `[0, 2)`
twice. -/
theorem C9_amended_cached_reread_witness :
    0 < 1 ∧ 2 * ((0 + 2 + 1 - 1) / 1 - 0 / 1) ≤ 4 + 1 ∧
    (((RawDataReaderCacheWrapper.mk0 1 4).read replicateReader 0 2).2.2 =
        (0 + 2 + 1 - 1) / 1 - 0 / 1 ∧
      (((RawDataReaderCacheWrapper.mk0 1 4).read replicateReader 0 2).2.1.read
          replicateReader 0 2) =
        (((RawDataReaderCacheWrapper.mk0 1 4).read replicateReader 0 2).1,
          ((RawDataReaderCacheWrapper.mk0 1 4).read replicateReader 0 2).2.1, 0) ∧
      (c9Evict3.readBlock replicateReader 0).2.2 = 1) :=
  ⟨by decide, by decide,
    C9_amended_cached_reread replicateReader 1 4 0 2 (by decide) (by decide)⟩

/-! ### C10 — cache size bounds -/
/-- C10 counterexample: with `blocksLimit = 1` (odd), after reading two
distinct blocks from a fresh wrapper each generation holds one block
(within its `⌈1/2⌉ = 1` bound), but the wrapper retains 2 cached blocks in
total — more than `blocksLimit`, refuting the claimed total bound. -/
theorem C10_counterexample_total_exceeds_limit :
    (((RawDataReaderCacheWrapper.mk0 1 1).readBlock replicateReader 0).2.1.readBlock
        replicateReader 1).2.1.newCache.length +
      (((RawDataReaderCacheWrapper.mk0 1 1).readBlock replicateReader 0).2.1.readBlock
        replicateReader 1).2.1.oldCache.length = 2 ∧
    ¬ (2 : Nat) ≤ 1 := by
  refine ⟨by decide, by decide⟩

/-- One `readBlock` preserves the per-generation bound
`size ≤ ⌈blocksLimit / 2⌉` (stated as `2 * size ≤ blocksLimit + 1`),
provided `blocksLimit ≥ 1`, and does not change the configuration. -/
theorem readBlock_size_inv (reader : Nat → Nat → List Nat)
    (st : RawDataReaderCacheWrapper) (i : Nat) (hL : 1 ≤ st.blocksLimit)
    (hnew : 2 * st.newCache.length ≤ st.blocksLimit + 1)
    (hold : 2 * st.oldCache.length ≤ st.blocksLimit + 1) :
    2 * (st.readBlock reader i).2.1.newCache.length ≤ st.blocksLimit + 1 ∧
    2 * (st.readBlock reader i).2.1.oldCache.length ≤ st.blocksLimit + 1 ∧
    (st.readBlock reader i).2.1.blockSize = st.blockSize ∧
    (st.readBlock reader i).2.1.blocksLimit = st.blocksLimit := by
  cases hlook : mapLookup st.newCache i with
  | some v =>
    rw [readBlock_hit reader st i v hlook]
    exact ⟨hnew, hold, rfl, rfl⟩
  | none =>
    cases hob : mapLookup st.oldCache i with
    | some b =>
      by_cases hrot : 2 * st.newCache.length ≥ st.blocksLimit
      · have heq : st.readBlock reader i =
            (b, { st with oldCache := st.newCache, newCache := mapSet [] i b }, 0) := by
          simp only [RawDataReaderCacheWrapper.readBlock, hlook, hob, if_pos hrot]
        rw [heq]
        have hms := mapSet_length_le [] i b
        simp only [List.length_nil] at hms
        exact ⟨by show 2 * (mapSet [] i b).length ≤ _; omega, hnew, rfl, rfl⟩
      · have heq : st.readBlock reader i =
            (b,
              { st with
                  oldCache := mapDelete st.oldCache i
                  newCache := mapSet st.newCache i b },
              0) := by
          simp only [RawDataReaderCacheWrapper.readBlock, hlook, hob, if_neg hrot]
        rw [heq]
        have hms := mapSet_length_le st.newCache i b
        have hmd := mapDelete_length_le st.oldCache i
        exact ⟨by show 2 * (mapSet st.newCache i b).length ≤ _; omega,
          by show 2 * (mapDelete st.oldCache i).length ≤ _; omega, rfl, rfl⟩
    | none =>
      by_cases hrot : 2 * st.newCache.length ≥ st.blocksLimit
      · have heq : st.readBlock reader i =
            (reader (i * st.blockSize) st.blockSize,
              { st with
                  oldCache := st.newCache
                  newCache := mapSet [] i (reader (i * st.blockSize) st.blockSize) },
              1) := by
          simp only [RawDataReaderCacheWrapper.readBlock, hlook, hob, if_pos hrot]
        rw [heq]
        have hms := mapSet_length_le [] i (reader (i * st.blockSize) st.blockSize)
        simp only [List.length_nil] at hms
        exact ⟨by show 2 * (mapSet [] i _).length ≤ _; omega, hnew, rfl, rfl⟩
      · have heq : st.readBlock reader i =
            (reader (i * st.blockSize) st.blockSize,
              { st with
                  newCache := mapSet st.newCache i (reader (i * st.blockSize) st.blockSize) },
              1) := by
          simp only [RawDataReaderCacheWrapper.readBlock, hlook, hob, if_neg hrot]
        rw [heq]
        have hms := mapSet_length_le st.newCache i (reader (i * st.blockSize) st.blockSize)
        exact ⟨by show 2 * (mapSet st.newCache i _).length ≤ _; omega, hold, rfl, rfl⟩

/-- C10 (amended): for every `blocksLimit ≥ 1` and every sequence of
`readBlock` calls from a fresh wrapper, each generation holds at most
`⌈blocksLimit / 2⌉` blocks — but the total is only bounded by
`2 ⌈blocksLimit / 2⌉`, which exceeds `blocksLimit` by one when `blocksLimit`
is odd (and equals it when even). -/
theorem C10_amended_generation_bounds (reader : Nat → Nat → List Nat)
    (bs L : Nat) (hL : 1 ≤ L) (ixs : List Nat) :
    2 * (readBlocks reader (RawDataReaderCacheWrapper.mk0 bs L) ixs).2.1.newCache.length ≤
      L + 1 ∧
    2 * (readBlocks reader (RawDataReaderCacheWrapper.mk0 bs L) ixs).2.1.oldCache.length ≤
      L + 1 ∧
    (readBlocks reader (RawDataReaderCacheWrapper.mk0 bs L) ixs).2.1.newCache.length +
        (readBlocks reader (RawDataReaderCacheWrapper.mk0 bs L) ixs).2.1.oldCache.length ≤
      2 * ((L + 1) / 2) := by
  suffices h : ∀ (st : RawDataReaderCacheWrapper), st.blocksLimit = L →
      2 * st.newCache.length ≤ L + 1 → 2 * st.oldCache.length ≤ L + 1 →
      2 * (readBlocks reader st ixs).2.1.newCache.length ≤ L + 1 ∧
      2 * (readBlocks reader st ixs).2.1.oldCache.length ≤ L + 1 by
    have := h (RawDataReaderCacheWrapper.mk0 bs L) rfl (by simp [RawDataReaderCacheWrapper.mk0])
      (by simp [RawDataReaderCacheWrapper.mk0])
    exact ⟨this.1, this.2, by omega⟩
  induction ixs with
  | nil => intro st _ h1 h2; exact ⟨h1, h2⟩
  | cons i rest ih =>
    intro st hlim h1 h2
    have hinv := readBlock_size_inv reader st i (hlim ▸ hL) (hlim ▸ h1) (hlim ▸ h2)
    rw [readBlocks]
    exact ih (st.readBlock reader i).2.1 (hinv.2.2.2.trans hlim)
      (hlim ▸ hinv.1) (hlim ▸ hinv.2.1)

/-- Witness for C10 (amended) at blocks limit 3 and four distinct blocks. -/
theorem C10_amended_generation_bounds_witness :
    (1 : Nat) ≤ 3 ∧
    (2 * (readBlocks replicateReader (RawDataReaderCacheWrapper.mk0 1 3)
        [0, 1, 2, 3]).2.1.newCache.length ≤ 3 + 1 ∧
      2 * (readBlocks replicateReader (RawDataReaderCacheWrapper.mk0 1 3)
        [0, 1, 2, 3]).2.1.oldCache.length ≤ 3 + 1 ∧
      (readBlocks replicateReader (RawDataReaderCacheWrapper.mk0 1 3)
          [0, 1, 2, 3]).2.1.newCache.length +
        (readBlocks replicateReader (RawDataReaderCacheWrapper.mk0 1 3)
          [0, 1, 2, 3]).2.1.oldCache.length ≤ 2 * ((3 + 1) / 2)) :=
  ⟨by decide, C10_amended_generation_bounds replicateReader 1 3 (by decide) [0, 1, 2, 3]⟩

end NodeCdb
